import Mathlib

/-!
# Verification of the l4 multi-resolution hit-rollup engine

Shallow embedding of the statistics core of the l4 image CDN:

* `src/src/stats.ts` — the rollup store (three SQLite counter tables at
  10-minute / hourly / daily granularity), the ingestion path `recordHit`
  with its opportunistic retention sweep, and the query functions
  `getTopImages`, `getTotalHits`, `getStats`, `getTraffic`.
* the variant stats module (unnamed part_002) whose `getTraffic` accepts an
  explicit `{startTime, endTime}` range, used by the `/api/stats/traffic`
  HTTP handler in `src/src/index.ts`.
* the dashboard client (unnamed part_005): the `downsample` viewport
  downsampler, the per-granularity LOD cache with `getBestCacheForRange`,
  `getGranularityForRange` and the zoom handler `handleSelect`.

SQLite tables are modelled as lists of rows; the upsert
(`INSERT .. ON CONFLICT .. DO UPDATE SET hits = hits + 1`) updates the row
found by the table's unique `(image_key, bucket)` index, modelled as the
first (and, in every reachable table, only) matching list entry.
Timestamps and buckets are `Nat` (epoch seconds); JavaScript's
`Math.floor(Date.now() / 1000)` arithmetic on these values is exact integer
arithmetic, and the `now - (now % p)` bucket alignment is `alignDown`.
`Nat` subtraction truncation agrees with the JS code on every branch it is
used in (a negative JS difference fails the same `≥`/`<` comparisons that
`0` does).
-/

set_option autoImplicit false

namespace L4

/-- Bucket clock: `alignDown(t, p) = t - (t % p)`, as computed at both write
and read time (`now - (now % 600)` etc. in `recordHit`). -/
def alignDown (t p : Nat) : Nat := t - t % p

theorem alignDown_eq_mul_div (t p : Nat) : alignDown t p = p * (t / p) := by
  have h := Nat.div_add_mod t p
  unfold alignDown
  omega

theorem alignDown_le (t p : Nat) : alignDown t p ≤ t :=
  Nat.sub_le _ _

theorem alignDown_mono {s t : Nat} (p : Nat) (h : s ≤ t) :
    alignDown s p ≤ alignDown t p := by
  rw [alignDown_eq_mul_div, alignDown_eq_mul_div]
  exact Nat.mul_le_mul_left p (Nat.div_le_div_right h)

/-- Aligning down to a coarser period (a multiple of the finer one) factors
through aligning down to the finer period. -/
theorem alignDown_alignDown (t p m : Nat) :
    alignDown (alignDown t p) (p * m) = alignDown t (p * m) := by
  rw [alignDown_eq_mul_div t p, alignDown_eq_mul_div, alignDown_eq_mul_div t (p * m)]
  rcases Nat.eq_zero_or_pos p with hp | hp
  · subst hp; simp
  · congr 1
    rw [Nat.mul_div_mul_left _ _ hp, Nat.div_div_eq_div_mul]

/-- The coarser bucket start is at most the finer bucket start. -/
theorem alignDown_coarse_le_fine (t p m : Nat) :
    alignDown t (p * m) ≤ alignDown t p := by
  unfold alignDown
  rcases Nat.eq_zero_or_pos p with hp | hp
  · subst hp; simp
  · have h1 : t % p = (t % (p * m)) % p := (Nat.mod_mod_of_dvd t ⟨m, rfl⟩).symm
    have h2 : (t % (p * m)) % p ≤ t % (p * m) := Nat.mod_le _ _
    omega

/-- A row of one of the three per-granularity SQLite counter tables
(`image_stats_10min`, `image_stats`, `image_stats_daily`): one row per
`(image_key, bucket)` pair, with a positive hit counter. -/
structure Row where
  key : String
  bucket : Nat
  hits : Nat
  deriving Repr, DecidableEq

/-- The rollup store: the three counter tables plus the module-level
`lastCleanup` timestamp that rate-limits the retention sweep. -/
structure Store where
  fine : List Row
  hour : List Row
  day : List Row
  lastCleanup : Nat
  deriving Repr, DecidableEq

def emptyStore : Store := ⟨[], [], [], 0⟩

/-- `INSERT INTO t (image_key, bucket, hits) VALUES (k, b, 1)
ON CONFLICT(image_key, bucket) DO UPDATE SET hits = hits + 1`: the unique
index on `(image_key, bucket)` makes the conflict target the single
matching row; in the list model this is the first matching entry. -/
def upsert : List Row → String → Nat → List Row
  | [], k, b => [⟨k, b, 1⟩]
  | r :: rs, k, b =>
    if r.key = k ∧ r.bucket = b then { r with hits := r.hits + 1 } :: rs
    else r :: upsert rs k b

/-- `recordHit(imageKey)` from `src/src/stats.ts` at wall-clock second
`now`: fan the hit out into all three tables, then (at most once per 600 s,
tracked by `lastCleanup`) delete fine rows older than the aligned 24-hour
cutoff. -/
def recordHit (imageKey : String) (now : Nat) (s : Store) : Store :=
  let bucket10Min := alignDown now 600
  let bucketHour := alignDown now 3600
  let bucketDay := alignDown now 86400
  let s' : Store :=
    { s with
      fine := upsert s.fine imageKey bucket10Min
      hour := upsert s.hour imageKey bucketHour
      day := upsert s.day imageKey bucketDay }
  if 600 ≤ now - s.lastCleanup then
    let cleanupBucket := alignDown (now - 86400) 600
    { s' with
      fine := s'.fine.filter (fun r => !decide (r.bucket < cleanupBucket))
      lastCleanup := now }
  else s'

/-- Run a trace of `recordHit` calls (key, timestamp) from a given store. -/
def runTraceFrom (s : Store) (trace : List (String × Nat)) : Store :=
  trace.foldl (fun st p => recordHit p.1 p.2 st) s

/-- Run a trace of `recordHit` calls from the empty store. -/
def runTrace (trace : List (String × Nat)) : Store :=
  runTraceFrom emptyStore trace

/-- `SUM(hits)` over a list of rows (`NULL`-as-0 for the empty list,
matching `result?.total ?? 0`). -/
def sumHits (rows : List Row) : Nat := (rows.map Row.hits).sum

/-- Hits of key `k` at or after `since`, summed — the per-key quantity the
SQL aggregates compute. -/
def keySum (tbl : List Row) (k : String) (since : Nat) : Nat :=
  sumHits (tbl.filter (fun r => decide (r.key = k) && decide (since ≤ r.bucket)))

/-- `GROUP BY (bucket / w) * w ORDER BY bucket` with `SUM(hits)` per group:
the distinct super-bucket starts in ascending order, each with the sum of
the hits of the rows falling into it.  SQLite emits one group per distinct
value of the grouping expression, ordered ascending.  `w = 1` is native
grouping (`GROUP BY bucket`). -/
def groupByBucket (rows : List Row) (w : Nat) : List (Nat × Nat) :=
  (((rows.map (fun r => r.bucket / w * w)).dedup).insertionSort (· ≤ ·)).map
    (fun b => (b, sumHits (rows.filter (fun r => decide (r.bucket / w * w = b)))))

/-- `SELECT MIN(bucket) ...` over the already-filtered rows; `0` stands for
SQL `NULL` on an empty input (the JS code's `!rangeResult.min_time` check
treats them alike). -/
def minB : List Nat → Nat
  | [] => 0
  | x :: xs => xs.foldl min x

/-- `SELECT MAX(bucket) ...`; `0` for SQL `NULL` on an empty input. -/
def maxB : List Nat → Nat
  | [] => 0
  | x :: xs => xs.foldl max x

/-- One concrete tie resolution for the rows returned by
`GROUP BY image_key ORDER BY total DESC LIMIT ?`: total descending, with
rows of equal totals placed in ascending key order.  The SQL has no
secondary sort key, so the query guarantees only the total-descending
part; SQLite leaves the relative order of rows whose `ORDER BY` keys
compare equal unspecified.  `topRel` merely fixes one admissible outcome
so that the `getTopImages` model stays executable; `topImagesAdmissible`
below captures exactly what the query guarantees. -/
def topRel (a b : String × Nat) : Prop :=
  b.2 < a.2 ∨ (a.2 = b.2 ∧ a.1 ≤ b.1)

instance : DecidableRel topRel := fun a b => by
  unfold topRel; infer_instance

instance : IsTotal (String × Nat) topRel := by
  constructor
  intro a b
  rcases Nat.lt_trichotomy a.2 b.2 with h | h | h
  · exact Or.inr (Or.inl h)
  · rcases le_total a.1 b.1 with hk | hk
    · exact Or.inl (Or.inr ⟨h, hk⟩)
    · exact Or.inr (Or.inr ⟨h.symm, hk⟩)
  · exact Or.inl (Or.inl h)

instance : IsTrans (String × Nat) topRel := by
  constructor
  intro a b c hab hbc
  rcases hab with h1 | ⟨h1, hk1⟩ <;> rcases hbc with h2 | ⟨h2, hk2⟩
  · exact Or.inl (h2.trans h1)
  · exact Or.inl (by omega)
  · exact Or.inl (by omega)
  · exact Or.inr ⟨h1.trans h2, hk1.trans hk2⟩

/-- The `(image_key, SUM(hits))` pairs of the grouped subquery of
`getTopImages`: one pair per distinct key of `rows`. -/
def topTotals (rows : List Row) : List (String × Nat) :=
  ((rows.map Row.key).dedup).map
    (fun k => (k, sumHits (rows.filter (fun r => decide (r.key = k)))))

/-- `getTopImages(sinceDays, limit)` from `src/src/stats.ts` at wall-clock
second `now`: `UNION ALL` of the hourly rows with `bucket_hour >= since`
and the 10-minute rows with `bucket_10min >= since`, grouped by key,
summed, ordered by total descending, limited.  The `insertionSort topRel`
realizes one admissible order among equal totals (the SQL specifies
none); see `topImagesAdmissible` for the guarantee the query makes. -/
def getTopImages (sinceDays limit now : Nat) (s : Store) : List (String × Nat) :=
  let since := now - sinceDays * 86400
  let rows := s.hour.filter (fun r => decide (since ≤ r.bucket)) ++
    s.fine.filter (fun r => decide (since ≤ r.bucket))
  ((topTotals rows).insertionSort topRel).take limit

/-- What `GROUP BY image_key ORDER BY total DESC LIMIT ?` guarantees about
the returned list: it is the `LIMIT`-prefix of some arrangement of the
grouped per-key totals that is sorted by total descending.  Nothing
constrains the relative order of rows with equal totals, so any such
arrangement is an admissible result of `getTopImages`. -/
def topImagesAdmissible (sinceDays limit now : Nat) (s : Store)
    (out : List (String × Nat)) : Prop :=
  ∃ full : List (String × Nat),
    List.Perm full (topTotals
      (s.hour.filter (fun r => decide (now - sinceDays * 86400 ≤ r.bucket)) ++
       s.fine.filter (fun r => decide (now - sinceDays * 86400 ≤ r.bucket)))) ∧
    full.Pairwise (fun a b => b.2 ≤ a.2) ∧
    out = full.take limit

/-- `getTotalHits(sinceDays)` from `src/src/stats.ts`:
`SUM(hits) FROM image_stats WHERE bucket_hour >= since` (0 for `NULL`). -/
def getTotalHits (sinceDays now : Nat) (s : Store) : Nat :=
  sumHits (s.hour.filter (fun r => decide (now - sinceDays * 86400 ≤ r.bucket)))

/-- `getUniqueImages(sinceDays)`:
`COUNT(DISTINCT image_key) FROM image_stats WHERE bucket_hour >= since`. -/
def getUniqueImages (sinceDays now : Nat) (s : Store) : Nat :=
  (((s.hour.filter (fun r => decide (now - sinceDays * 86400 ≤ r.bucket))).map
    Row.key).dedup).length

/-- `getStats(imageKey, sinceDays)`: the hourly rows of one key at or
after `since`, as `(bucket_hour, hits)` ordered by bucket ascending. -/
def getStats (imageKey : String) (sinceDays now : Nat) (s : Store) :
    List (Nat × Nat) :=
  ((s.hour.filter (fun r =>
      decide (r.key = imageKey) && decide (now - sinceDays * 86400 ≤ r.bucket))).map
    (fun r => (r.bucket, r.hits))).insertionSort (fun a b => a.1 ≤ b.1)

/- `getTraffic(sinceDays)` from `src/src/stats.ts` is split below into its
two inner branches plus the dispatcher: 10-minute data for spans up to a
day when present; daily data with adaptive multi-day super-buckets for
requested spans over 30 days; hourly data with adaptive multi-hour
super-buckets otherwise.  The `!rangeResult.min_time` /
`!rangeResult.max_time` emptiness checks also fire on a `0` bucket
(JavaScript falsiness), modelled by the `minB`/`maxB` `= 0` disjuncts. -/

/-- The `sinceDays > 30` branch of `getTraffic`, applied to the daily rows
already filtered by `bucket_day >= since`: empty (or `0`-bucket, by JS
falsiness) range gives `("daily", [])`; an actual span of at most 90 days
(`7776000` s) keeps native one-day buckets; a larger span groups into
`dayMultiplier = max(1, floor(actualSpanDays / 90))`-day super-buckets,
labelled `"daily"` when the multiplier is 1 and `"${m}daily"` otherwise. -/
def spanOf (rows : List Row) : Nat :=
  maxB (rows.map Row.bucket) - minB (rows.map Row.bucket)

def dailyBranch (rows : List Row) : String × List (Nat × Nat) :=
  if rows = [] ∨ minB (rows.map Row.bucket) = 0 ∨ maxB (rows.map Row.bucket) = 0 then
    ("daily", [])
  else if spanOf rows ≤ 7776000 then ("daily", groupByBucket rows 86400)
  else
    (if max 1 (spanOf rows / 7776000) = 1 then "daily"
      else toString (max 1 (spanOf rows / 7776000)) ++ "daily",
      groupByBucket rows (86400 * max 1 (spanOf rows / 7776000)))

/-- The `1 < sinceDays ≤ 30` branch of `getTraffic`, applied to the hourly
rows already filtered by `bucket_hour >= since`: actual span of at most 7
days (`604800` s) keeps native hourly buckets; a larger span groups into
`hourMultiplier = floor(actualSpanDays / 7)`-hour super-buckets labelled
`"${m}hourly"`. -/
def hourlyBranch (rows : List Row) : String × List (Nat × Nat) :=
  if rows = [] ∨ minB (rows.map Row.bucket) = 0 ∨ maxB (rows.map Row.bucket) = 0 then
    ("hourly", [])
  else if spanOf rows ≤ 604800 then ("hourly", groupByBucket rows 3600)
  else
    (toString (spanOf rows / 604800) ++ "hourly",
      groupByBucket rows (3600 * (spanOf rows / 604800)))

/-- `getTraffic(sinceDays)` itself: try 10-minute data for requested spans
up to a day, else dispatch on `sinceDays > 30` to the daily or hourly
branch. -/
def getTraffic (sinceDays now : Nat) (s : Store) : String × List (Nat × Nat) :=
  if sinceDays ≤ 1 ∧
      groupByBucket (s.fine.filter
        (fun r => decide (now - sinceDays * 86400 ≤ r.bucket))) 1 ≠ [] then
    ("10min", groupByBucket (s.fine.filter
      (fun r => decide (now - sinceDays * 86400 ≤ r.bucket))) 1)
  else if 30 < sinceDays then
    dailyBranch (s.day.filter (fun r => decide (now - sinceDays * 86400 ≤ r.bucket)))
  else
    hourlyBranch (s.hour.filter (fun r => decide (now - sinceDays * 86400 ≤ r.bucket)))

/-- `getTraffic(sinceDays, options)` from the variant stats module
(part_002), after resolving `since`/`end` (`options.startTime ?? now -
sinceDays*86400`, `options.endTime ?? now`): `spanDays ≤ 1` tries the
10-minute table, `spanDays ≤ 30` reads hourly, otherwise daily — all with
inclusive `since ≤ bucket ≤ end` bounds and native grouping. -/
def inRange (since endT : Int) (r : Row) : Bool :=
  decide (since ≤ (r.bucket : Int)) && decide ((r.bucket : Int) ≤ endT)

def getTrafficRange (since endT : Int) (s : Store) : String × List (Nat × Nat) :=
  if endT - since ≤ 86400 ∧ groupByBucket (s.fine.filter (inRange since endT)) 1 ≠ [] then
    ("10min", groupByBucket (s.fine.filter (inRange since endT)) 1)
  else if endT - since ≤ 2592000 then
    ("hourly", groupByBucket (s.hour.filter (inRange since endT)) 1)
  else ("daily", groupByBucket (s.day.filter (inRange since endT)) 1)

/-- Request shape of `/api/stats/traffic`: either explicit `start`/`end`
query parameters (zoom mode) or a `days` parameter (normal mode). -/
inductive TrafficReq
  | range (start endT : Int)
  | days (d : Int)

/-- `Math.min(Math.max(days, 1), 365)` — the clamp every stats endpoint
applies to its integer `days` query parameter. -/
def safeDays (d : Int) : Int := min (max d 1) 365

/-- The `/api/stats/traffic` GET handler (`src/src/index.ts`).  In zoom
mode it forwards `start`/`end` to `getTraffic` unchecked (computing only
`spanDays = (end-start)/86400`); in normal mode it clamps `days` and asks
for the last `safeDays` days.  `Except` records that the handler could
reject a request with an error response, which it never does. -/
def trafficHandler (req : TrafficReq) (now : Nat) (s : Store) :
    Except String (String × List (Nat × Nat)) :=
  match req with
  | .range start endT => .ok (getTrafficRange start endT s)
  | .days d => .ok (getTrafficRange ((now : Int) - safeDays d * 86400) (now : Int) s)

/-- The `/api/stats/overview` GET handler: clamps `days` and serves
totals, unique-image count and top images (limit 20). -/
def overviewHandler (d : Int) (now : Nat) (s : Store) :
    Nat × Nat × List (String × Nat) :=
  (getTotalHits (safeDays d).toNat now s,
   getUniqueImages (safeDays d).toNat now s,
   getTopImages (safeDays d).toNat 20 now s)

/-- The `/api/stats/image/:key` GET handler: clamps `days` and serves the
per-key hourly series. -/
def imageStatsHandler (k : String) (d : Int) (now : Nat) (s : Store) :
    List (Nat × Nat) :=
  getStats k (safeDays d).toNat now s

theorem keySum_nil (k : String) (since : Nat) : keySum [] k since = 0 := rfl

theorem keySum_cons (r : Row) (rs : List Row) (k : String) (since : Nat) :
    keySum (r :: rs) k since =
      (if r.key = k ∧ since ≤ r.bucket then r.hits else 0) + keySum rs k since := by
  by_cases h1 : r.key = k <;> by_cases h2 : since ≤ r.bucket <;>
    simp [keySum, sumHits, List.filter_cons, h1, h2]

/-- The atomic upsert adds exactly one hit to the per-key in-range sum,
when the new bucket is in range for that key. -/
theorem keySum_upsert (tbl : List Row) (k' : String) (b : Nat) (k : String)
    (since : Nat) :
    keySum (upsert tbl k' b) k since =
      keySum tbl k since + (if k' = k ∧ since ≤ b then 1 else 0) := by
  induction tbl with
  | nil =>
    rw [show upsert [] k' b = [⟨k', b, 1⟩] from rfl,
      show ([⟨k', b, 1⟩] : List Row) = ⟨k', b, 1⟩ :: [] from rfl, keySum_cons]
    simp [keySum_nil]
  | cons r rs ih =>
    rw [upsert]
    by_cases hm : r.key = k' ∧ r.bucket = b
    · rw [if_pos hm, keySum_cons, keySum_cons]
      simp only [hm.1, hm.2]
      by_cases h : k' = k ∧ since ≤ b
      · simp only [if_pos h]; omega
      · simp only [if_neg h]; omega
    · rw [if_neg hm, keySum_cons, keySum_cons, ih]; omega

/-- Every row of an upsert result either carries the upserted bucket or
the bucket of a pre-existing row. -/
theorem mem_upsert_bucket {tbl : List Row} {k : String} {b : Nat} {r : Row}
    (h : r ∈ upsert tbl k b) :
    r.bucket = b ∨ ∃ r' ∈ tbl, r.bucket = r'.bucket := by
  induction tbl with
  | nil =>
    rw [show upsert [] k b = [⟨k, b, 1⟩] from rfl, List.mem_singleton] at h
    exact Or.inl (by rw [h])
  | cons r0 rs ih =>
    rw [upsert] at h
    by_cases hm : r0.key = k ∧ r0.bucket = b
    · rw [if_pos hm, List.mem_cons] at h
      rcases h with h | h
      · exact Or.inl (by rw [h]; exact hm.2)
      · exact Or.inr ⟨r, List.mem_cons_of_mem _ h, rfl⟩
    · rw [if_neg hm, List.mem_cons] at h
      rcases h with h | h
      · exact Or.inr ⟨r0, List.mem_cons_self _ _, by rw [h]⟩
      · rcases ih h with h' | ⟨r', hr', h'⟩
        · exact Or.inl h'
        · exact Or.inr ⟨r', List.mem_cons_of_mem _ hr', h'⟩

/-- Upserting into the canonical single-row table of the same key and
bucket just bumps the counter. -/
theorem upsert_single (k : String) (b n : Nat) :
    upsert [⟨k, b, n⟩] k b = [⟨k, b, n + 1⟩] := by
  rw [upsert, if_pos ⟨rfl, rfl⟩]

/-- A filter that every element passes is the identity. -/
theorem filter_eq_self_of_all {α : Type} (p : α → Bool) (l : List α)
    (h : ∀ a ∈ l, p a = true) : l.filter p = l :=
  List.filter_eq_self.mpr h

/-- Claim C6 — when the retention sweep fires inside `recordHit` at time
`now` (i.e. at least 600 s have passed since `lastCleanup`), the resulting
fine table is exactly the upserted fine table with every row below the
aligned 24-hour cutoff `alignDown(now - 86400, 600)` deleted; in
particular every remaining fine row sits at or above the cutoff. -/
theorem recordHit_sweep_retention (s : Store) (k : String) (now : Nat)
    (h : 600 ≤ now - s.lastCleanup) :
    (recordHit k now s).fine =
      (upsert s.fine k (alignDown now 600)).filter
        (fun r => !decide (r.bucket < alignDown (now - 86400) 600)) ∧
    ∀ r ∈ (recordHit k now s).fine, alignDown (now - 86400) 600 ≤ r.bucket := by
  have heq : (recordHit k now s).fine =
      (upsert s.fine k (alignDown now 600)).filter
        (fun r => !decide (r.bucket < alignDown (now - 86400) 600)) := by
    unfold recordHit
    rw [if_pos h]
  refine ⟨heq, ?_⟩
  intro r hr
  rw [heq] at hr
  have hcond := (List.mem_filter.mp hr).2
  simp only [Bool.not_eq_eq_eq_not, Bool.not_true, decide_eq_false_iff_not] at hcond
  exact Nat.le_of_not_lt hcond

/-- Witness for C6: sweeping at `now = 10^9` with a stale and a fresh fine
row deletes exactly the stale one. -/
theorem recordHit_sweep_retention_witness :
    (recordHit "b" 1000000000
        ⟨[⟨"a", 0, 3⟩, ⟨"a", 999999600, 2⟩], [], [], 0⟩).fine =
      (upsert [⟨"a", 0, 3⟩, ⟨"a", 999999600, 2⟩] "b" (alignDown 1000000000 600)).filter
        (fun r => !decide (r.bucket < alignDown (1000000000 - 86400) 600)) ∧
    ∀ r ∈ (recordHit "b" 1000000000
        ⟨[⟨"a", 0, 3⟩, ⟨"a", 999999600, 2⟩], [], [], 0⟩).fine,
      alignDown (1000000000 - 86400) 600 ≤ r.bucket :=
  recordHit_sweep_retention ⟨[⟨"a", 0, 3⟩, ⟨"a", 999999600, 2⟩], [], [], 0⟩
    "b" 1000000000 (by decide)

/-- One `recordHit` on the canonical single-key store (one row per table,
all for key `k`, buckets derived from the shared fine bucket `B`) bumps
all three counters and touches nothing else; the sweep, whether or not it
fires, keeps the single fine row because its bucket is at or above any
cutoff computed from a time in the same fine bucket. -/
theorem recordHit_canonical (k : String) (B n lc t : Nat)
    (hB : alignDown t 600 = B) :
    ∃ lc', recordHit k t
        ⟨[⟨k, B, n⟩], [⟨k, alignDown B 3600, n⟩], [⟨k, alignDown B 86400, n⟩], lc⟩ =
      ⟨[⟨k, B, n + 1⟩], [⟨k, alignDown B 3600, n + 1⟩],
        [⟨k, alignDown B 86400, n + 1⟩], lc'⟩ := by
  have hH : alignDown t 3600 = alignDown B 3600 := by
    rw [← hB, show (3600 : Nat) = 600 * 6 from rfl, alignDown_alignDown]
  have hD : alignDown t 86400 = alignDown B 86400 := by
    rw [← hB, show (86400 : Nat) = 600 * 144 from rfl, alignDown_alignDown]
  have hcut : ¬ (B < alignDown (t - 86400) 600) := by
    have h1 : alignDown (t - 86400) 600 ≤ alignDown t 600 :=
      alignDown_mono 600 (Nat.sub_le _ _)
    omega
  unfold recordHit
  by_cases hsw : 600 ≤ t - lc
  · refine ⟨t, ?_⟩
    rw [if_pos hsw]
    simp only [hB, hH, hD, upsert_single]
    rw [show List.filter _ [(⟨k, B, n + 1⟩ : Row)] =
        [(⟨k, B, n + 1⟩ : Row)] from by
      rw [List.filter_cons]
      simp [hcut]]
  · exact ⟨lc, by rw [if_neg hsw]; simp only [hB, hH, hD, upsert_single]⟩

/-- Folding same-fine-bucket hits of one key over the canonical single-key
store accumulates all three counters. -/
theorem runTraceFrom_canonical (k : String) (B : Nat) (times : List Nat)
    (hB : ∀ t ∈ times, alignDown t 600 = B) :
    ∀ n lc, ∃ lc', runTraceFrom
        ⟨[⟨k, B, n⟩], [⟨k, alignDown B 3600, n⟩], [⟨k, alignDown B 86400, n⟩], lc⟩
        (times.map (fun t => (k, t))) =
      ⟨[⟨k, B, n + times.length⟩], [⟨k, alignDown B 3600, n + times.length⟩],
        [⟨k, alignDown B 86400, n + times.length⟩], lc'⟩ := by
  induction times with
  | nil => exact fun n lc => ⟨lc, rfl⟩
  | cons t ts ih =>
    intro n lc
    obtain ⟨lc1, h1⟩ := recordHit_canonical k B n lc t (hB t (List.mem_cons_self _ _))
    obtain ⟨lc2, h2⟩ := ih (fun u hu => hB u (List.mem_cons_of_mem _ hu)) (n + 1) lc1
    refine ⟨lc2, ?_⟩
    rw [show runTraceFrom _ ((t :: ts).map (fun u => (k, u))) =
        runTraceFrom (recordHit k t
          ⟨[⟨k, B, n⟩], [⟨k, alignDown B 3600, n⟩], [⟨k, alignDown B 86400, n⟩], lc⟩)
          (ts.map (fun u => (k, u))) from rfl, h1, h2]
    have : n + 1 + ts.length = n + (ts.length + 1) := by omega
    rw [this]
    rfl

/-- The very first hit creates the canonical single-key store. -/
theorem recordHit_empty (k : String) (t : Nat) :
    ∃ lc', recordHit k t emptyStore =
      ⟨[⟨k, alignDown t 600, 1⟩],
        [⟨k, alignDown (alignDown t 600) 3600, 1⟩],
        [⟨k, alignDown (alignDown t 600) 86400, 1⟩], lc'⟩ := by
  have hH : alignDown t 3600 = alignDown (alignDown t 600) 3600 := by
    rw [show (3600 : Nat) = 600 * 6 from rfl, alignDown_alignDown]
  have hD : alignDown t 86400 = alignDown (alignDown t 600) 86400 := by
    rw [show (86400 : Nat) = 600 * 144 from rfl, alignDown_alignDown]
  have hcut : ¬ (alignDown t 600 < alignDown (t - 86400) 600) := by
    have h1 : alignDown (t - 86400) 600 ≤ alignDown t 600 :=
      alignDown_mono 600 (Nat.sub_le _ _)
    omega
  unfold recordHit emptyStore
  by_cases hsw : 600 ≤ t - 0
  · refine ⟨t, ?_⟩
    rw [if_pos hsw]
    simp only [hH, hD]
    rw [show upsert [] k (alignDown t 600) = [⟨k, alignDown t 600, 1⟩] from rfl,
      show upsert [] k (alignDown (alignDown t 600) 3600) =
        [⟨k, alignDown (alignDown t 600) 3600, 1⟩] from rfl,
      show upsert [] k (alignDown (alignDown t 600) 86400) =
        [⟨k, alignDown (alignDown t 600) 86400, 1⟩] from rfl]
    rw [show List.filter _ [(⟨k, alignDown t 600, 1⟩ : Row)] =
        [(⟨k, alignDown t 600, 1⟩ : Row)] from by
      rw [List.filter_cons]
      simp [hcut]]
  · exact ⟨0, by rw [if_neg hsw]; simp only [hH, hD]; rfl⟩

/-- Claim C7 — `n` calls to `recordHit(k)` whose timestamps all share the
10-minute bucket `B`, starting from the empty store, leave exactly one
fine row `(k, B, n)`, one hourly row `(k, alignDown B 3600, n)` and one
daily row `(k, alignDown B 86400, n)`. -/
theorem recordHit_same_bucket_accumulates (k : String) (times : List Nat)
    (B : Nat) (hne : times ≠ []) (hB : ∀ t ∈ times, alignDown t 600 = B) :
    (runTrace (times.map (fun t => (k, t)))).fine = [⟨k, B, times.length⟩] ∧
    (runTrace (times.map (fun t => (k, t)))).hour =
      [⟨k, alignDown B 3600, times.length⟩] ∧
    (runTrace (times.map (fun t => (k, t)))).day =
      [⟨k, alignDown B 86400, times.length⟩] := by
  obtain ⟨t, ts, rfl⟩ := List.exists_cons_of_ne_nil hne
  have hBt : alignDown t 600 = B := hB t (List.mem_cons_self _ _)
  obtain ⟨lc0, h0⟩ := recordHit_empty k t
  rw [hBt] at h0
  obtain ⟨lc', h'⟩ := runTraceFrom_canonical k B ts
    (fun u hu => hB u (List.mem_cons_of_mem _ hu)) 1 lc0
  have hrun : runTrace ((t :: ts).map (fun u => (k, u))) =
      ⟨[⟨k, B, 1 + ts.length⟩], [⟨k, alignDown B 3600, 1 + ts.length⟩],
        [⟨k, alignDown B 86400, 1 + ts.length⟩], lc'⟩ := by
    rw [show runTrace ((t :: ts).map (fun u => (k, u))) =
        runTraceFrom (recordHit k t emptyStore) (ts.map (fun u => (k, u))) from rfl,
      h0, h']
  rw [hrun]
  refine ⟨?_, ?_, ?_⟩ <;> simp [List.length_cons] <;> omega

/-- Witness for C7: 100 hits on `a.webp` inside one 10-minute window give
one row with `hits = 100` in each table. -/
theorem recordHit_same_bucket_accumulates_witness :
    (runTrace (((List.range 100).map (fun i => 999999600 + i)).map
        (fun t => ("a.webp", t)))).fine = [⟨"a.webp", 999999600, 100⟩] ∧
    (runTrace (((List.range 100).map (fun i => 999999600 + i)).map
        (fun t => ("a.webp", t)))).hour = [⟨"a.webp", 999997200, 100⟩] ∧
    (runTrace (((List.range 100).map (fun i => 999999600 + i)).map
        (fun t => ("a.webp", t)))).day = [⟨"a.webp", 999993600, 100⟩] := by
  have h := recordHit_same_bucket_accumulates "a.webp"
    ((List.range 100).map (fun i => 999999600 + i)) 999999600
    (by decide) (by decide)
  simpa using h

theorem sum_map_add {α : Type} (l : List α) (f g : α → Nat) :
    (l.map (fun a => f a + g a)).sum = (l.map f).sum + (l.map g).sum := by
  induction l with
  | nil => rfl
  | cons a l ih => simp only [List.map_cons, List.sum_cons, ih]; omega

theorem sum_map_ite_zero (bs : List Nat) (x v : Nat) (hx : x ∉ bs) :
    (bs.map (fun b => if x = b then v else 0)).sum = 0 := by
  induction bs with
  | nil => rfl
  | cons b bs ih =>
    have hxb : x ≠ b := fun h => hx (h ▸ List.mem_cons_self _ _)
    simp only [List.map_cons, List.sum_cons, if_neg hxb,
      ih (fun h => hx (List.mem_cons_of_mem _ h))]

theorem sum_map_ite_eq (bs : List Nat) (x v : Nat) (hnd : bs.Nodup)
    (hx : x ∈ bs) : (bs.map (fun b => if x = b then v else 0)).sum = v := by
  induction bs with
  | nil => cases hx
  | cons b bs ih =>
    rcases List.mem_cons.mp hx with h | h
    · have hxbs : x ∉ bs := h ▸ (List.nodup_cons.mp hnd).1
      simp only [List.map_cons, List.sum_cons, if_pos h,
        sum_map_ite_zero bs x v hxbs]
      omega
    · have hxb : x ≠ b := fun he =>
        (List.nodup_cons.mp hnd).1 (he ▸ h)
      simp only [List.map_cons, List.sum_cons, if_neg hxb,
        ih (List.nodup_cons.mp hnd).2 h]
      omega

/-- Summing the per-fiber sums over a duplicate-free list of fiber labels
that covers every row recovers the total sum — the `GROUP BY` partition
loses no hits. -/
theorem sumHits_fiber (f : Row → Nat) (rows : List Row) (bs : List Nat)
    (hnd : bs.Nodup) (hcov : ∀ r ∈ rows, f r ∈ bs) :
    (bs.map (fun b => sumHits (rows.filter (fun r => decide (f r = b))))).sum =
      sumHits rows := by
  induction rows with
  | nil =>
    simp [sumHits]
  | cons r rows ih =>
    have hsplit : ∀ b : Nat,
        sumHits ((r :: rows).filter (fun r' => decide (f r' = b))) =
          (if f r = b then r.hits else 0) +
            sumHits (rows.filter (fun r' => decide (f r' = b))) := by
      intro b
      rw [List.filter_cons]
      by_cases h : f r = b <;> simp [sumHits, h]
    simp only [hsplit]
    rw [sum_map_add, sum_map_ite_eq bs (f r) r.hits hnd
      (hcov r (List.mem_cons_self _ _)),
      ih (fun r' h' => hcov r' (List.mem_cons_of_mem _ h'))]
    simp [sumHits]

/-- The hit totals of any `groupByBucket` grouping sum to the hit total of
the grouped rows. -/
theorem groupByBucket_sum (rows : List Row) (w : Nat) :
    ((groupByBucket rows w).map Prod.snd).sum = sumHits rows := by
  unfold groupByBucket
  rw [List.map_map]
  have hperm : List.Perm
      (((rows.map (fun r => r.bucket / w * w)).dedup).insertionSort (· ≤ ·))
      ((rows.map (fun r => r.bucket / w * w)).dedup) :=
    List.perm_insertionSort _ _
  rw [(hperm.map _).sum_eq]
  exact sumHits_fiber _ rows _ (List.nodup_dedup _)
    (fun r hr => List.mem_dedup.mpr (List.mem_map_of_mem _ hr))

theorem foldl_min_mem (xs : List Nat) : ∀ x : Nat, xs.foldl min x ∈ x :: xs := by
  induction xs with
  | nil => intro x; exact List.mem_singleton.mpr rfl
  | cons y ys ih =>
    intro x
    rw [List.foldl_cons]
    rcases List.mem_cons.mp (ih (min x y)) with h | h
    · rcases min_choice x y with hc | hc
      · rw [h, hc]; exact List.mem_cons_self _ _
      · rw [h, hc]; exact List.mem_cons_of_mem _ (List.mem_cons_self _ _)
    · exact List.mem_cons_of_mem _ (List.mem_cons_of_mem _ h)

theorem foldl_max_mem (xs : List Nat) : ∀ x : Nat, xs.foldl max x ∈ x :: xs := by
  induction xs with
  | nil => intro x; exact List.mem_singleton.mpr rfl
  | cons y ys ih =>
    intro x
    rw [List.foldl_cons]
    rcases List.mem_cons.mp (ih (max x y)) with h | h
    · rcases max_choice x y with hc | hc
      · rw [h, hc]; exact List.mem_cons_self _ _
      · rw [h, hc]; exact List.mem_cons_of_mem _ (List.mem_cons_self _ _)
    · exact List.mem_cons_of_mem _ (List.mem_cons_of_mem _ h)

theorem minB_mem {l : List Nat} (h : l ≠ []) : minB l ∈ l := by
  match l with
  | x :: xs => exact foldl_min_mem xs x

theorem maxB_mem {l : List Nat} (h : l ≠ []) : maxB l ∈ l := by
  match l with
  | x :: xs => exact foldl_max_mem xs x

/-- Claim C8 — at any wall-clock time later than 30 days after the epoch,
`getTotalHits(days=30)` equals the sum of the `hits` fields of the series
returned by `getTraffic(days=30)`; the same holds for the range-capable
`getTraffic` variant whenever no hourly bucket lies in the future. -/
theorem getTotalHits_eq_traffic_sum (now : Nat) (s : Store)
    (h : 2592000 < now) :
    getTotalHits 30 now s = ((getTraffic 30 now s).2.map Prod.snd).sum ∧
    ((∀ r ∈ s.hour, r.bucket ≤ now) →
      getTotalHits 30 now s =
        ((getTrafficRange ((now : Int) - 2592000) (now : Int) s).2.map
          Prod.snd).sum) := by
  have hgt : getTotalHits 30 now s =
      sumHits (s.hour.filter (fun r => decide (now - 30 * 86400 ≤ r.bucket))) := rfl
  have hsince : ∀ r ∈ s.hour.filter (fun r => decide (now - 30 * 86400 ≤ r.bucket)),
      1 ≤ r.bucket := by
    intro r hr
    have := (List.mem_filter.mp hr).2
    simp only [decide_eq_true_eq] at this
    omega
  constructor
  · have h1 : getTraffic 30 now s =
        hourlyBranch (s.hour.filter (fun r => decide (now - 30 * 86400 ≤ r.bucket))) := by
      unfold getTraffic
      rw [if_neg (fun hc => absurd hc.1 (by omega)),
        if_neg (by omega : ¬ (30 : Nat) < 30)]
    rw [hgt, h1]
    set rows := s.hour.filter (fun r => decide (now - 30 * 86400 ≤ r.bucket)) with hrows
    by_cases he : rows = []
    · rw [hourlyBranch, if_pos (Or.inl he), he]
      rfl
    · have hbs : rows.map Row.bucket ≠ [] := by
        simp [he]
      have hmin : minB (rows.map Row.bucket) ≠ 0 := by
        obtain ⟨r, hr, hrb⟩ := List.mem_map.mp (minB_mem hbs)
        have := hsince r hr
        omega
      have hmax : maxB (rows.map Row.bucket) ≠ 0 := by
        obtain ⟨r, hr, hrb⟩ := List.mem_map.mp (maxB_mem hbs)
        have := hsince r hr
        omega
      rw [hourlyBranch, if_neg (by push_neg; exact ⟨he, hmin, hmax⟩)]
      by_cases hs : spanOf rows ≤ 604800
      · rw [if_pos hs, groupByBucket_sum]
      · rw [if_neg hs, groupByBucket_sum]
  · intro hb
    have hfe : s.hour.filter (inRange ((now : Int) - 2592000) (now : Int)) =
        s.hour.filter (fun r => decide (now - 30 * 86400 ≤ r.bucket)) := by
      apply List.filter_congr
      intro r hr
      have hub : ((r.bucket : Int) ≤ (now : Int)) := by
        exact_mod_cast hb r hr
      unfold inRange
      rw [decide_eq_true hub, Bool.and_true]
      apply decide_eq_decide.mpr
      omega
    have hstep : getTrafficRange ((now : Int) - 2592000) (now : Int) s =
        ("hourly", groupByBucket
          (s.hour.filter (inRange ((now : Int) - 2592000) (now : Int))) 1) := by
      unfold getTrafficRange
      rw [if_neg (fun hc => absurd hc.1 (by omega)),
        if_pos (by omega : (now : Int) - ((now : Int) - 2592000) ≤ 2592000)]
    rw [hgt, hstep]
    rw [show ((("hourly", groupByBucket
        (s.hour.filter (inRange ((now : Int) - 2592000) (now : Int))) 1) :
        String × List (Nat × Nat)).2) = groupByBucket
        (s.hour.filter (inRange ((now : Int) - 2592000) (now : Int))) 1 from rfl]
    rw [hfe, groupByBucket_sum]

/-- Witness for C8 at a concrete time and store. -/
theorem getTotalHits_eq_traffic_sum_witness :
    getTotalHits 30 1000000000 ⟨[], [⟨"a", 999997200, 7⟩, ⟨"b", 3600, 5⟩], [], 0⟩ =
      ((getTraffic 30 1000000000
        ⟨[], [⟨"a", 999997200, 7⟩, ⟨"b", 3600, 5⟩], [], 0⟩).2.map Prod.snd).sum ∧
    ((∀ r ∈ [(⟨"a", 999997200, 7⟩ : Row), ⟨"b", 3600, 5⟩], r.bucket ≤ 1000000000) →
      getTotalHits 30 1000000000 ⟨[], [⟨"a", 999997200, 7⟩, ⟨"b", 3600, 5⟩], [], 0⟩ =
        ((getTrafficRange ((1000000000 : Int) - 2592000) (1000000000 : Int)
          ⟨[], [⟨"a", 999997200, 7⟩, ⟨"b", 3600, 5⟩], [], 0⟩).2.map Prod.snd).sum) :=
  getTotalHits_eq_traffic_sum 1000000000
    ⟨[], [⟨"a", 999997200, 7⟩, ⟨"b", 3600, 5⟩], [], 0⟩ (by decide)

/-- Claim C10 — every stats endpoint clamps its integer `days` parameter
into `[1, 365]` (silently, never rejecting): `safeDays` lands in the
interval, is the identity on it, and each handler behaves as if it had
been called with the clamped value. -/
theorem handlers_clamp_days (d : Int) (k : String) (now : Nat) (s : Store) :
    (1 ≤ safeDays d ∧ safeDays d ≤ 365) ∧
    (1 ≤ d ∧ d ≤ 365 → safeDays d = d) ∧
    overviewHandler d now s = overviewHandler (safeDays d) now s ∧
    trafficHandler (.days d) now s = trafficHandler (.days (safeDays d)) now s ∧
    imageStatsHandler k d now s = imageStatsHandler k (safeDays d) now s := by
  have hidem : safeDays (safeDays d) = safeDays d := by
    unfold safeDays
    omega
  refine ⟨⟨?_, ?_⟩, ?_, ?_, ?_, ?_⟩
  · unfold safeDays; omega
  · unfold safeDays; omega
  · intro hd; unfold safeDays; omega
  · unfold overviewHandler; rw [hidem]
  · have e1 : trafficHandler (.days d) now s =
        .ok (getTrafficRange ((now : Int) - safeDays d * 86400) (now : Int) s) := rfl
    have e2 : trafficHandler (.days (safeDays d)) now s =
        .ok (getTrafficRange ((now : Int) - safeDays (safeDays d) * 86400)
          (now : Int) s) := rfl
    rw [e1, e2, hidem]
  · unfold imageStatsHandler; rw [hidem]

/-- Witness for C10: `days = 1000` is clamped (to 365) and the handlers
behave accordingly. -/
theorem handlers_clamp_days_witness :
    (1 ≤ safeDays 1000 ∧ safeDays 1000 ≤ 365) ∧
    (1 ≤ (1000 : Int) ∧ (1000 : Int) ≤ 365 → safeDays 1000 = 1000) ∧
    overviewHandler 1000 5000 emptyStore =
      overviewHandler (safeDays 1000) 5000 emptyStore ∧
    trafficHandler (.days 1000) 5000 emptyStore =
      trafficHandler (.days (safeDays 1000)) 5000 emptyStore ∧
    imageStatsHandler "k" 1000 5000 emptyStore =
      imageStatsHandler "k" (safeDays 1000) 5000 emptyStore :=
  handlers_clamp_days 1000 "k" 5000 emptyStore

/-- Counterexample to C2 as stated — with `start = 100`, `end = 50`
(`end < start`) and a non-empty hourly table, the `/api/stats/traffic`
handler does not reject: it calls `getTraffic`, whose hourly range query
runs against the store and yields the empty series, and answers 200 with
`("hourly", [])`. -/
theorem trafficHandler_no_reject :
    trafficHandler (.range 100 50) 1000 ⟨[], [⟨"a", 75, 5⟩], [], 0⟩ =
      .ok ("hourly", []) := by rfl

/-- Claim C2, amended — the handler performs no range validation: for every
request with `end < start` it forwards the range to `getTraffic`, whose
10-minute and hourly range reads over the contradictory bounds both come
back empty, and it responds `("hourly", [])` instead of rejecting. -/
theorem trafficHandler_invalid_range (start endT : Int) (now : Nat)
    (s : Store) (h : endT < start) :
    trafficHandler (.range start endT) now s = .ok ("hourly", []) := by
  have hempty : ∀ tbl : List Row, tbl.filter (inRange start endT) = [] := by
    intro tbl
    apply List.filter_eq_nil_iff.mpr
    intro r _
    unfold inRange
    simp only [Bool.and_eq_true, decide_eq_true_eq, not_and]
    intro h1 h2
    omega
  have hstep : trafficHandler (.range start endT) now s =
      .ok (getTrafficRange start endT s) := rfl
  have hok : getTrafficRange start endT s = ("hourly", []) := by
    unfold getTrafficRange
    rw [hempty s.fine, hempty s.hour]
    rw [if_neg (fun hc => hc.2 rfl),
      if_pos (by omega : endT - start ≤ 2592000)]
    rfl
  rw [hstep, hok]

/-- Claim C4 — for every requested span over 30 days (at any wall-clock
time later than `sinceDays` days after the epoch), `getTraffic` reads the
daily table and (a) returns `("daily", [])` when no daily rows are in
range, (b) returns granularity `"daily"` with native one-day buckets
whenever the actual data span is at most 90 days, and (c) emits a
non-`"daily"` label only when the actual span exceeds 90 days; in
particular `getTraffic(days=400)` over 10 days of actual data returns
native daily buckets. -/
theorem getTraffic_daily_native (sinceDays now : Nat) (s : Store)
    (h30 : 30 < sinceDays) (hnow : sinceDays * 86400 < now) :
    ((s.day.filter (fun r => decide (now - sinceDays * 86400 ≤ r.bucket)) = [] →
        getTraffic sinceDays now s = ("daily", [])) ∧
      (s.day.filter (fun r => decide (now - sinceDays * 86400 ≤ r.bucket)) ≠ [] →
        spanOf (s.day.filter (fun r => decide (now - sinceDays * 86400 ≤ r.bucket))) ≤
          7776000 →
        getTraffic sinceDays now s =
          ("daily", groupByBucket
            (s.day.filter (fun r => decide (now - sinceDays * 86400 ≤ r.bucket)))
            86400)) ∧
      ((getTraffic sinceDays now s).1 ≠ "daily" →
        7776000 <
          spanOf (s.day.filter (fun r => decide (now - sinceDays * 86400 ≤ r.bucket))))) ∧
    getTraffic 400 2000000000
        ⟨[], [], (List.range 10).map (fun i => ⟨"img", 86400 * (22990 + i), 1⟩), 0⟩ =
      ("daily", (List.range 10).map (fun i => (86400 * (22990 + i), 1))) := by
  have hred : getTraffic sinceDays now s =
      dailyBranch (s.day.filter (fun r => decide (now - sinceDays * 86400 ≤ r.bucket))) := by
    unfold getTraffic
    rw [if_neg (fun hc => absurd hc.1 (by omega)), if_pos h30]
  set rows := s.day.filter (fun r => decide (now - sinceDays * 86400 ≤ r.bucket)) with hrows
  have hsince : ∀ r ∈ rows, 1 ≤ r.bucket := by
    intro r hr
    have := (List.mem_filter.mp hr).2
    simp only [decide_eq_true_eq] at this
    omega
  have hguard : rows ≠ [] →
      ¬ (rows = [] ∨ minB (rows.map Row.bucket) = 0 ∨ maxB (rows.map Row.bucket) = 0) := by
    intro he
    have hbs : rows.map Row.bucket ≠ [] := by simp [he]
    have hmin : minB (rows.map Row.bucket) ≠ 0 := by
      obtain ⟨r, hr, hrb⟩ := List.mem_map.mp (minB_mem hbs)
      have := hsince r hr
      omega
    have hmax : maxB (rows.map Row.bucket) ≠ 0 := by
      obtain ⟨r, hr, hrb⟩ := List.mem_map.mp (maxB_mem hbs)
      have := hsince r hr
      omega
    push_neg
    exact ⟨he, hmin, hmax⟩
  refine ⟨⟨?_, ?_, ?_⟩, by decide⟩
  · intro he
    rw [hred, dailyBranch, if_pos (Or.inl he)]
  · intro he hspan
    rw [hred, dailyBranch, if_neg (hguard he), if_pos hspan]
  · intro hgran
    by_contra hle
    push_neg at hle
    rcases eq_or_ne rows [] with he | he
    · rw [hred, dailyBranch, if_pos (Or.inl he)] at hgran
      exact hgran rfl
    · rw [hred, dailyBranch, if_neg (hguard he), if_pos hle] at hgran
      exact hgran rfl

/-- Witness for C4 at a concrete over-30-day request. -/
theorem getTraffic_daily_native_witness :
    (((⟨[], [], [⟨"img", 4060800, 2⟩], 0⟩ : Store).day.filter
        (fun r => decide (5000000 - 31 * 86400 ≤ r.bucket)) = [] →
      getTraffic 31 5000000 ⟨[], [], [⟨"img", 4060800, 2⟩], 0⟩ = ("daily", [])) ∧
      ((⟨[], [], [⟨"img", 4060800, 2⟩], 0⟩ : Store).day.filter
          (fun r => decide (5000000 - 31 * 86400 ≤ r.bucket)) ≠ [] →
        spanOf ((⟨[], [], [⟨"img", 4060800, 2⟩], 0⟩ : Store).day.filter
          (fun r => decide (5000000 - 31 * 86400 ≤ r.bucket))) ≤ 7776000 →
        getTraffic 31 5000000 ⟨[], [], [⟨"img", 4060800, 2⟩], 0⟩ =
          ("daily", groupByBucket ((⟨[], [], [⟨"img", 4060800, 2⟩], 0⟩ : Store).day.filter
            (fun r => decide (5000000 - 31 * 86400 ≤ r.bucket))) 86400)) ∧
      ((getTraffic 31 5000000 ⟨[], [], [⟨"img", 4060800, 2⟩], 0⟩).1 ≠ "daily" →
        7776000 < spanOf ((⟨[], [], [⟨"img", 4060800, 2⟩], 0⟩ : Store).day.filter
          (fun r => decide (5000000 - 31 * 86400 ≤ r.bucket))))) ∧
    getTraffic 400 2000000000
        ⟨[], [], (List.range 10).map (fun i => ⟨"img", 86400 * (22990 + i), 1⟩), 0⟩ =
      ("daily", (List.range 10).map (fun i => (86400 * (22990 + i), 1))) :=
  getTraffic_daily_native 31 5000000 ⟨[], [], [⟨"img", 4060800, 2⟩], 0⟩
    (by decide) (by decide)

/-- Witness for the amended C2 at another concrete inverted range. -/
theorem trafficHandler_invalid_range_witness :
    trafficHandler (.range 200 (-3)) 7777
        ⟨[⟨"x", 100, 1⟩], [⟨"y", 50, 2⟩], [⟨"z", 86400, 3⟩], 0⟩ =
      .ok ("hourly", []) :=
  trafficHandler_invalid_range 200 (-3) 7777
    ⟨[⟨"x", 100, 1⟩], [⟨"y", 50, 2⟩], [⟨"z", 86400, 3⟩], 0⟩ (by decide)

/-- The executable `getTopImages` is one admissible evaluation of the
query (its `insertionSort topRel` output is a total-descending arrangement
of the grouped totals). -/
theorem getTopImages_mem_admissible (sinceDays limit now : Nat) (s : Store) :
    topImagesAdmissible sinceDays limit now s (getTopImages sinceDays limit now s) := by
  refine ⟨(topTotals
    (s.hour.filter (fun r => decide (now - sinceDays * 86400 ≤ r.bucket)) ++
     s.fine.filter (fun r => decide (now - sinceDays * 86400 ≤ r.bucket)))).insertionSort
      topRel, List.perm_insertionSort _ _, ?_, rfl⟩
  refine (List.sorted_insertionSort topRel _).imp ?_
  intro a b hab
  rcases hab with h | ⟨h, _⟩
  · exact le_of_lt h
  · exact le_of_eq h.symm

/-- Two total-descending arrangements of the same rows coincide when the
totals are pairwise distinct: `ORDER BY total DESC` has a unique result in
a tie-free scenario. -/
theorem sorted_desc_perm_unique :
    ∀ (l₁ l₂ : List (String × Nat)), List.Perm l₁ l₂ →
      l₁.Pairwise (fun a b => b.2 ≤ a.2) →
      l₂.Pairwise (fun a b => b.2 ≤ a.2) →
      (l₂.map Prod.snd).Nodup → l₁ = l₂ := by
  intro l₁
  induction l₁ with
  | nil =>
    intro l₂ hp _ _ _
    have hlen := hp.length_eq
    simp only [List.length_nil] at hlen
    exact (List.length_eq_zero.mp hlen.symm).symm
  | cons x t₁ ih =>
    intro l₂ hp hs₁ hs₂ hnd
    cases l₂ with
    | nil =>
      have hlen := hp.length_eq
      simp at hlen
    | cons y t₂ =>
      have hx : x ∈ y :: t₂ := hp.mem_iff.mp (List.mem_cons_self _ _)
      have hy : y ∈ x :: t₁ := hp.mem_iff.mpr (List.mem_cons_self _ _)
      rcases eq_or_ne x y with rfl | hxy
      · have hp' := hp.cons_inv
        have htl := ih t₂ hp' (List.pairwise_cons.mp hs₁).2
          (List.pairwise_cons.mp hs₂).2
          (List.nodup_cons.mp (by simpa using hnd)).2
        rw [htl]
      · have hxt : x ∈ t₂ := by
          rcases List.mem_cons.mp hx with h | h
          · exact absurd h hxy
          · exact h
        have hyt : y ∈ t₁ := by
          rcases List.mem_cons.mp hy with h | h
          · exact absurd h.symm hxy
          · exact h
        have h1 : x.2 ≤ y.2 := (List.pairwise_cons.mp hs₂).1 x hxt
        have h2 : y.2 ≤ x.2 := (List.pairwise_cons.mp hs₁).1 y hyt
        have hmem : y.2 ∈ t₂.map Prod.snd := by
          rw [show y.2 = x.2 from le_antisymm h2 h1]
          exact List.mem_map_of_mem _ hxt
        exact absurd hmem (List.nodup_cons.mp (by simpa using hnd)).1

/-- Counterexample to C3 as stated — with tied totals `{a:5, b:9, c:5}`
the query `ORDER BY total DESC LIMIT ?` (which has no secondary sort key)
admits the output `[(b,9), (c,5), (a,5)]`, whose equal totals are not in
ascending key order: the lexical tie-break asserted by the claim is not
guaranteed by the code. -/
theorem getTopImages_tie_order_cex :
    topImagesAdmissible 7 3 1209600
      ⟨[], [⟨"a", 1004400, 5⟩, ⟨"b", 1004400, 9⟩, ⟨"c", 1004400, 5⟩], [], 0⟩
      [("b", 9), ("c", 5), ("a", 5)] ∧
    ¬ ([("b", 9), ("c", 5), ("a", 5)] : List (String × Nat)).Pairwise topRel := by
  constructor
  · exact ⟨[("b", 9), ("c", 5), ("a", 5)], by decide, by decide, rfl⟩
  · intro hp
    have h := (List.pairwise_cons.mp (List.pairwise_cons.mp hp).2).1 ("a", 5)
      (List.mem_singleton.mpr rfl)
    rcases h with h | ⟨_, h⟩
    · exact Nat.lt_irrefl 5 h
    · have hca : ¬ ("c" : String) ≤ "a" := by
        rw [String.le_iff_toList_le]
        decide
      exact hca h

/-- Claim C3, amended — every admissible result of
`getTopImages(sinceDays, limit)` is ordered by total hits descending, with
the relative order of equal totals left unspecified by the query, carries
at most one entry per key, and holds at most `limit` entries; and in the
tie-free scenario with per-key totals `{a:5, b:9, c:3}` every admissible
result of `getTopImages(days=7, limit=2)` equals `[(b,9), (a,5)]`. -/
theorem getTopImages_ordered_amended :
    (∀ (sinceDays limit now : Nat) (s : Store) (out : List (String × Nat)),
      topImagesAdmissible sinceDays limit now s out →
      out.Pairwise (fun a b => b.2 ≤ a.2) ∧
      (out.map Prod.fst).Nodup ∧ out.length ≤ limit) ∧
    (∀ out : List (String × Nat),
      topImagesAdmissible 7 2 1209600
        ⟨[], [⟨"a", 1004400, 5⟩, ⟨"b", 1004400, 9⟩, ⟨"c", 1004400, 3⟩], [], 0⟩ out →
      out = [("b", 9), ("a", 5)]) := by
  constructor
  · rintro sinceDays limit now s out ⟨full, hperm, hsort, rfl⟩
    refine ⟨hsort.sublist (List.take_sublist _ _), ?_, List.length_take_le _ _⟩
    have h1 : (topTotals
        (s.hour.filter (fun r => decide (now - sinceDays * 86400 ≤ r.bucket)) ++
         s.fine.filter (fun r => decide (now - sinceDays * 86400 ≤ r.bucket)))).map
          Prod.fst =
        ((s.hour.filter (fun r => decide (now - sinceDays * 86400 ≤ r.bucket)) ++
          s.fine.filter (fun r => decide (now - sinceDays * 86400 ≤ r.bucket))).map
            Row.key).dedup := by
      unfold topTotals
      rw [List.map_map]
      exact List.map_id _
    have h2 : (full.map Prod.fst).Nodup := by
      refine (hperm.map Prod.fst).nodup_iff.mpr ?_
      rw [h1]
      exact List.nodup_dedup _
    rw [List.map_take]
    exact h2.sublist (List.take_sublist _ _)
  · rintro out ⟨full, hperm, hsort, rfl⟩
    have hcanon : full = [("b", 9), ("a", 5), ("c", 3)] := by
      refine sorted_desc_perm_unique full [("b", 9), ("a", 5), ("c", 3)]
        (hperm.trans (by decide)) hsort (by decide) (by decide)
    rw [hcanon]
    rfl

/-- Witness for the amended C3: the canonical admissible scenario output
`[(b,9), (a,5)]` satisfies the ordering and limit guarantees, and the
tie-free scenario forces it. -/
theorem getTopImages_ordered_amended_witness :
    (([("b", 9), ("a", 5)] : List (String × Nat)).Pairwise
        (fun a b => b.2 ≤ a.2) ∧
      (([("b", 9), ("a", 5)] : List (String × Nat)).map Prod.fst).Nodup ∧
      ([("b", 9), ("a", 5)] : List (String × Nat)).length ≤ 2) ∧
    [("b", 9), ("a", 5)] = ([("b", 9), ("a", 5)] : List (String × Nat)) :=
  ⟨getTopImages_ordered_amended.1 7 2 1209600
      ⟨[], [⟨"a", 1004400, 5⟩, ⟨"b", 1004400, 9⟩, ⟨"c", 1004400, 3⟩], [], 0⟩
      [("b", 9), ("a", 5)]
      ⟨[("b", 9), ("a", 5), ("c", 3)], by decide, by decide, rfl⟩,
    getTopImages_ordered_amended.2 [("b", 9), ("a", 5)]
      ⟨[("b", 9), ("a", 5), ("c", 3)], by decide, by decide, rfl⟩⟩

theorem sumHits_append (a b : List Row) :
    sumHits (a ++ b) = sumHits a + sumHits b := by
  simp [sumHits]

/-- Along any trace of hits the hourly table accumulates, per key and range
bound, exactly the number of trace hits whose hour bucket is in range (the
retention sweep never touches the hourly table). -/
theorem keySum_runTraceFrom_hour (trace : List (String × Nat)) :
    ∀ (s0 : Store) (k : String) (since : Nat),
      keySum (runTraceFrom s0 trace).hour k since =
        keySum s0.hour k since +
          trace.countP
            (fun p => decide (p.1 = k) && decide (since ≤ alignDown p.2 3600)) := by
  induction trace with
  | nil =>
    intro s0 k since
    simp [runTraceFrom]
  | cons p ps ih =>
    intro s0 k since
    have hh : (recordHit p.1 p.2 s0).hour = upsert s0.hour p.1 (alignDown p.2 3600) := by
      unfold recordHit
      by_cases hsw : 600 ≤ p.2 - s0.lastCleanup
      · rw [if_pos hsw]
      · rw [if_neg hsw]
    have hstep : runTraceFrom s0 (p :: ps) = runTraceFrom (recordHit p.1 p.2 s0) ps := rfl
    rw [hstep, ih, hh, keySum_upsert, List.countP_cons]
    by_cases h1 : p.1 = k <;> by_cases h2 : since ≤ alignDown p.2 3600 <;>
      simp [h1, h2] <;> omega

/-- Along any trace whose hits lie within 24 h of one another, the fine
table also accumulates exactly the in-range trace hits: no sweep fired
during the trace can delete any of its fine rows. -/
theorem keySum_runTraceFrom_fine (trace : List (String × Nat)) :
    ∀ (s0 : Store) (k : String) (since : Nat),
      (∀ r ∈ s0.fine, ∀ q ∈ trace, alignDown (q.2 - 86400) 600 ≤ r.bucket) →
      (∀ p ∈ trace, ∀ q ∈ trace, alignDown (q.2 - 86400) 600 ≤ alignDown p.2 600) →
      keySum (runTraceFrom s0 trace).fine k since =
        keySum s0.fine k since +
          trace.countP
            (fun p => decide (p.1 = k) && decide (since ≤ alignDown p.2 600)) := by
  induction trace with
  | nil =>
    intro s0 k since _ _
    simp [runTraceFrom]
  | cons p ps ih =>
    intro s0 k since hs0 hpair
    have hfine : (recordHit p.1 p.2 s0).fine = upsert s0.fine p.1 (alignDown p.2 600) := by
      unfold recordHit
      by_cases hsw : 600 ≤ p.2 - s0.lastCleanup
      · rw [if_pos hsw]
        dsimp only
        apply filter_eq_self_of_all
        intro r hr
        have hge : alignDown (p.2 - 86400) 600 ≤ r.bucket := by
          rcases mem_upsert_bucket hr with hb | ⟨r', hr', hb⟩
          · rw [hb]
            exact hpair p (List.mem_cons_self _ _) p (List.mem_cons_self _ _)
          · rw [hb]
            exact hs0 r' hr' p (List.mem_cons_self _ _)
        simp only [Bool.not_eq_eq_eq_not, Bool.not_true, decide_eq_false_iff_not]
        omega
      · rw [if_neg hsw]
    have hs0' : ∀ r ∈ (recordHit p.1 p.2 s0).fine, ∀ q ∈ ps,
        alignDown (q.2 - 86400) 600 ≤ r.bucket := by
      intro r hr q hq
      rw [hfine] at hr
      rcases mem_upsert_bucket hr with hb | ⟨r', hr', hb⟩
      · rw [hb]
        exact hpair p (List.mem_cons_self _ _) q (List.mem_cons_of_mem _ hq)
      · rw [hb]
        exact hs0 r' hr' q (List.mem_cons_of_mem _ hq)
    have hpair' : ∀ a ∈ ps, ∀ q ∈ ps,
        alignDown (q.2 - 86400) 600 ≤ alignDown a.2 600 :=
      fun a ha q hq =>
        hpair a (List.mem_cons_of_mem _ ha) q (List.mem_cons_of_mem _ hq)
    have hstep : runTraceFrom s0 (p :: ps) = runTraceFrom (recordHit p.1 p.2 s0) ps := rfl
    rw [hstep, ih _ k since hs0' hpair', hfine, keySum_upsert, List.countP_cons]
    by_cases h1 : p.1 = k <;> by_cases h2 : since ≤ alignDown p.2 600 <;>
      simp [h1, h2] <;> omega

/-- Counterexample to C1 as stated — a single `recordHit("a")` at time
`10^9` leaves a store in which `getTopImages(7, 10)` at the same time
reports total `2` for key `a`, although the trace contains exactly one hit
of `a` in the requested range: the fine/medium union double-counts. -/
theorem getTopImages_double_count_cex :
    getTopImages 7 10 1000000000 (runTrace [("a", 1000000000)]) = [("a", 2)] ∧
    ([(("a", 1000000000) : String × Nat)]).countP (fun p => decide (p.1 = "a")) = 1 := by
  constructor
  · decide
  · decide

/-- Claim C1, amended — `getTopImages` sums the hourly and the 10-minute
tables with `UNION ALL` over the same time range, and `recordHit`
increments both for every event, so for any trace of hits whose hour
buckets are all in range and whose timestamps lie within 24 h of one
another (so the sweep deletes none of their fine rows), every entry
reported by `getTopImages` carries exactly TWICE its key's true hit count
over the requested range. -/
theorem getTopImages_counts_double (d limit now : Nat)
    (trace : List (String × Nat))
    (hrange : ∀ p ∈ trace, now - d * 86400 ≤ alignDown p.2 3600)
    (hclose : ∀ p ∈ trace, ∀ q ∈ trace, q.2 ≤ p.2 + 86400) :
    ∀ e ∈ getTopImages d limit now (runTrace trace),
      e.2 = 2 * trace.countP (fun p => decide (p.1 = e.1)) := by
  intro e he
  have hdef : getTopImages d limit now (runTrace trace) =
      ((topTotals
        ((runTrace trace).hour.filter (fun r => decide (now - d * 86400 ≤ r.bucket)) ++
         (runTrace trace).fine.filter (fun r => decide (now - d * 86400 ≤ r.bucket)))).insertionSort
          topRel).take limit := rfl
  rw [hdef] at he
  have he2 := ((List.perm_insertionSort topRel _).mem_iff).mp (List.mem_of_mem_take he)
  obtain ⟨k, hk, hke⟩ := List.mem_map.mp he2
  rw [← hke]
  dsimp only
  have hsplit :
      sumHits ((((runTrace trace).hour.filter (fun r => decide (now - d * 86400 ≤ r.bucket)) ++
        (runTrace trace).fine.filter (fun r => decide (now - d * 86400 ≤ r.bucket)))).filter
          (fun r => decide (r.key = k))) =
        keySum (runTrace trace).hour k (now - d * 86400) +
        keySum (runTrace trace).fine k (now - d * 86400) := by
    rw [List.filter_append, sumHits_append]
    unfold keySum
    rw [List.filter_filter, List.filter_filter]
  have hhour : keySum (runTrace trace).hour k (now - d * 86400) =
      trace.countP (fun p => decide (p.1 = k)) := by
    unfold runTrace
    rw [keySum_runTraceFrom_hour trace emptyStore k (now - d * 86400)]
    rw [show keySum emptyStore.hour k (now - d * 86400) = 0 from rfl]
    rw [Nat.zero_add]
    apply List.countP_congr
    intro p hp
    rw [decide_eq_true (hrange p hp), Bool.and_true]
  have hfine : keySum (runTrace trace).fine k (now - d * 86400) =
      trace.countP (fun p => decide (p.1 = k)) := by
    unfold runTrace
    rw [keySum_runTraceFrom_fine trace emptyStore k (now - d * 86400)
      (fun r hr => absurd hr (List.not_mem_nil r))
      (fun p hp q hq => by
        have h1 : q.2 - 86400 ≤ p.2 := by
          have := hclose p hp q hq
          omega
        exact alignDown_mono 600 h1)]
    rw [show keySum emptyStore.fine k (now - d * 86400) = 0 from rfl]
    rw [Nat.zero_add]
    apply List.countP_congr
    intro p hp
    have hcoarse : alignDown p.2 3600 ≤ alignDown p.2 600 := by
      have := alignDown_coarse_le_fine p.2 600 6
      simpa using this
    have hin : now - d * 86400 ≤ alignDown p.2 600 := le_trans (hrange p hp) hcoarse
    rw [decide_eq_true hin, Bool.and_true]
  rw [hsplit, hhour, hfine]
  omega

/-- Witness for the amended C1: three hits (`a`, `a`, `b`) inside one day
yield the entries `(a, 4)` and `(b, 2)` — each key's total is exactly
double its true hit count. -/
theorem getTopImages_counts_double_witness :
    (("a", (4 : Nat)).2 = 2 * ([("a", 1000000000), ("b", 1000020000),
        ("a", 1000040000)] : List (String × Nat)).countP
          (fun p => decide (p.1 = ("a", (4 : Nat)).1))) ∧
    (("b", (2 : Nat)).2 = 2 * ([("a", 1000000000), ("b", 1000020000),
        ("a", 1000040000)] : List (String × Nat)).countP
          (fun p => decide (p.1 = ("b", (2 : Nat)).1))) :=
  ⟨getTopImages_counts_double 7 10 1000000000
      [("a", 1000000000), ("b", 1000020000), ("a", 1000040000)]
      (by decide) (by decide) ("a", 4) (by decide),
    getTopImages_counts_double 7 10 1000000000
      [("a", 1000000000), ("b", 1000020000), ("a", 1000040000)]
      (by decide) (by decide) ("b", 2) (by decide)⟩

/-! ## Dashboard client (part_005)

`downsample` works on the two parallel arrays `timestamps` / `hits`; hit
values are JavaScript numbers, modelled as `ℚ` (every operation performed
on them here — sum and division by a chunk length — is exact for the
integer-valued series the server produces).  `findFirstGe` is
`timestamps.findIndex((t) => t >= minX)`; `lastLe` is the backwards
`for`-loop searching the last index with `timestamps[i] <= maxX`, which
leaves `endIdx` at `length - 1` when no such index exists. -/

def findFirstGe (minX : Int) : List Int → Option Nat
  | [] => none
  | t :: rest => if minX ≤ t then some 0 else (findFirstGe minX rest).map (· + 1)

def lastLe (maxX : Int) : List Int → Option Nat
  | [] => none
  | t :: rest =>
    match lastLe maxX rest with
    | some j => some (j + 1)
    | none => if t ≤ maxX then some 0 else none

/-- `l.slice(startIdx, endIdx + 1)`. -/
def sliceTo {α : Type} (l : List α) (startIdx endIdx : Nat) : List α :=
  (l.drop startIdx).take (endIdx + 1 - startIdx)

/-- The chunking of the `for (let i = 0; i < sliceLen; i += bucketSize)`
loop: contiguous chunks of `bucketSize` elements (the last one possibly
shorter).  `bucketSize = 0` stands for the JavaScript
`Math.ceil(sliceLen / 0) = Infinity`, whose loop body runs once over the
whole slice. -/
def chunksOf {α : Type} : Nat → List α → List (List α)
  | _, [] => []
  | 0, x :: xs => [x :: xs]
  | b + 1, x :: xs => (x :: xs).take (b + 1) :: chunksOf (b + 1) ((x :: xs).drop (b + 1))
termination_by b l => l.length
decreasing_by simp [List.length_drop]; omega

/-- `avgHits = sumHits / (jEnd - i)` for one chunk. -/
def chunkAvg (c : List (Int × ℚ)) : ℚ := (c.map Prod.snd).sum / (c.length : ℚ)

/-- `bucketSize = Math.ceil(sliceLen / maxPoints)`; `0` encodes the
`Infinity` produced by `maxPoints = 0` (see `chunksOf`). -/
def bucketSizeOf (sliceLen maxPoints : Nat) : Nat :=
  if maxPoints = 0 then 0 else (sliceLen + maxPoints - 1) / maxPoints

/-- The body of `downsample` after `startIdx`/`endIdx` are fixed: empty
slice guard, the `sliceLen <= maxPoints` passthrough, else one point per
chunk (timestamp = chunk's first timestamp, value = mean of the chunk's
hits). -/
def downsampleCore (timestamps : List Int) (hits : List ℚ)
    (startIdx endIdx maxPoints : Nat) : List Int × List ℚ :=
  if endIdx + 1 ≤ startIdx then ([], [])
  else if endIdx + 1 - startIdx ≤ maxPoints then
    (sliceTo timestamps startIdx endIdx, sliceTo hits startIdx endIdx)
  else
    ((chunksOf (bucketSizeOf (endIdx + 1 - startIdx) maxPoints)
        ((sliceTo timestamps startIdx endIdx).zip (sliceTo hits startIdx endIdx))).map
      (fun c => (c.headD (0, 0)).1),
     (chunksOf (bucketSizeOf (endIdx + 1 - startIdx) maxPoints)
        ((sliceTo timestamps startIdx endIdx).zip (sliceTo hits startIdx endIdx))).map
      chunkAvg)

/-- `downsample(timestamps, hits, minX, maxX, maxPoints)` from part_005. -/
def downsample (timestamps : List Int) (hits : List ℚ) (minX maxX : Int)
    (maxPoints : Nat) : List Int × List ℚ :=
  match findFirstGe minX timestamps with
  | none => ([], [])
  | some startIdx =>
    downsampleCore timestamps hits startIdx
      ((lastLe maxX timestamps).getD (timestamps.length - 1)) maxPoints

theorem findFirstGe_cons_head {minX t : Int} (rest : List Int) (h : minX ≤ t) :
    findFirstGe minX (t :: rest) = some 0 := by
  unfold findFirstGe
  rw [if_pos h]

theorem findFirstGe_spec {minX : Int} :
    ∀ {l : List Int} {s : Nat}, findFirstGe minX l = some s →
      ∃ h : s < l.length, minX ≤ l.get ⟨s, h⟩ := by
  intro l
  induction l with
  | nil => intro s h; simp [findFirstGe] at h
  | cons t rest ih =>
    intro s h
    rw [findFirstGe] at h
    by_cases ht : minX ≤ t
    · rw [if_pos ht] at h
      injection h with h
      subst h
      exact ⟨Nat.succ_pos _, ht⟩
    · rw [if_neg ht] at h
      obtain ⟨j, hj, rfl⟩ := Option.map_eq_some'.mp h
      obtain ⟨hlt, hge⟩ := ih hj
      exact ⟨Nat.succ_lt_succ hlt, by simpa using hge⟩

theorem lastLe_none_spec {maxX : Int} :
    ∀ {l : List Int}, lastLe maxX l = none → ∀ t ∈ l, ¬ t ≤ maxX := by
  intro l
  induction l with
  | nil => intro _ t ht; cases ht
  | cons t rest ih =>
    intro h u hu
    rw [lastLe] at h
    cases hrec : lastLe maxX rest with
    | some j => rw [hrec] at h; simp at h
    | none =>
      rw [hrec] at h
      simp only [Option.elim_none] at h
      by_cases htm : t ≤ maxX
      · rw [if_pos htm] at h; cases h
      · rcases List.mem_cons.mp hu with rfl | hu'
        · exact htm
        · exact ih hrec u hu'

theorem lastLe_eq_none {maxX : Int} :
    ∀ {l : List Int}, (∀ t ∈ l, ¬ t ≤ maxX) → lastLe maxX l = none := by
  intro l
  induction l with
  | nil => intro _; rfl
  | cons t rest ih =>
    intro h
    rw [lastLe, ih (fun u hu => h u (List.mem_cons_of_mem _ hu))]
    simp only [Option.elim_none]
    exact if_neg (h t (List.mem_cons_self _ _))

theorem lastLe_some_spec {maxX : Int} :
    ∀ {l : List Int} {e : Nat}, lastLe maxX l = some e →
      ∃ h : e < l.length, l.get ⟨e, h⟩ ≤ maxX := by
  intro l
  induction l with
  | nil => intro e h; simp [lastLe] at h
  | cons t rest ih =>
    intro e h
    rw [lastLe] at h
    cases hrec : lastLe maxX rest with
    | some j =>
      rw [hrec] at h
      simp only [Option.elim_some] at h
      injection h with h
      subst h
      obtain ⟨hlt, hle⟩ := ih hrec
      exact ⟨Nat.succ_lt_succ hlt, by simpa using hle⟩
    | none =>
      rw [hrec] at h
      simp only [Option.elim_none] at h
      by_cases htm : t ≤ maxX
      · rw [if_pos htm] at h
        injection h with h
        subst h
        exact ⟨Nat.succ_pos _, htm⟩
      · rw [if_neg htm] at h; cases h

theorem lastLe_of_all {maxX : Int} :
    ∀ {l : List Int}, (∀ t ∈ l, t ≤ maxX) → l ≠ [] →
      lastLe maxX l = some (l.length - 1) := by
  intro l
  induction l with
  | nil => intro _ h; cases h rfl
  | cons t rest ih =>
    intro h _
    rw [lastLe]
    rcases eq_or_ne rest [] with rfl | hne
    · simp [lastLe, h t (List.mem_cons_self _ _)]
    · rw [ih (fun u hu => h u (List.mem_cons_of_mem _ hu)) hne]
      simp only [Option.elim_some, List.length_cons]
      have := List.length_pos.mpr hne
      congr 1
      omega

theorem sliceTo_length {α : Type} (l : List α) (s e : Nat) :
    (sliceTo l s e).length = min (e + 1 - s) (l.length - s) := by
  simp [sliceTo]

theorem sliceTo_get {α : Type} (l : List α) (s e j : Nat)
    (hj : j < (sliceTo l s e).length) :
    ∃ h : s + j < l.length, (sliceTo l s e).get ⟨j, hj⟩ = l.get ⟨s + j, h⟩ := by
  have hlen := sliceTo_length l s e
  have h2 : s + j < l.length := by rw [hlen] at hj; omega
  refine ⟨h2, ?_⟩
  simp [sliceTo, List.get_eq_getElem]

theorem mem_sliceTo {α : Type} {l : List α} {s e : Nat} {y : α}
    (hy : y ∈ sliceTo l s e) :
    ∃ (i : Nat) (h : i < l.length), s ≤ i ∧ i ≤ e ∧ y = l.get ⟨i, h⟩ := by
  obtain ⟨n, hn⟩ := List.mem_iff_get.mp hy
  obtain ⟨h2, hg⟩ := sliceTo_get l s e n.1 n.2
  have h3 : (n : Nat) < min (e + 1 - s) (l.length - s) := sliceTo_length l s e ▸ n.2
  refine ⟨s + n.1, h2, Nat.le_add_right _ _, by omega, ?_⟩
  rw [← hn, hg]

theorem sliceTo_full {α : Type} {l : List α} {n : Nat} (hlen : l.length = n)
    (hpos : 1 ≤ n) : sliceTo l 0 (n - 1) = l := by
  unfold sliceTo
  rw [List.drop_zero]
  have h : n - 1 + 1 - 0 = l.length := by omega
  rw [h, List.take_length]

theorem chunksOf_zero_cons {α : Type} (x : α) (xs : List α) :
    chunksOf 0 (x :: xs) = [x :: xs] := by
  rw [chunksOf]

theorem chunksOf_length_le {α : Type} (b : Nat) (hb : 1 ≤ b) :
    ∀ (m : Nat) (l : List α), l.length ≤ b * m → (chunksOf b l).length ≤ m := by
  intro m
  induction m with
  | zero =>
    intro l hl
    have h : l = [] := List.length_eq_zero.mp (by omega)
    rw [h]
    simp [chunksOf]
  | succ m ih =>
    intro l hl
    cases l with
    | nil => simp [chunksOf]
    | cons x xs =>
      cases b with
      | zero => omega
      | succ b' =>
        rw [chunksOf]
        rw [Nat.mul_succ] at hl
        simp only [List.length_cons] at hl
        simp only [List.length_cons]
        have hdrop : ((x :: xs).drop (b' + 1)).length ≤ (b' + 1) * m := by
          simp only [List.length_drop, List.length_cons]
          omega
        have h2 := ih _ hdrop
        omega

theorem mem_chunksOf {α : Type} (b : Nat) :
    ∀ (n : Nat) (l : List α), l.length ≤ n →
      ∀ c ∈ chunksOf b l, c ≠ [] ∧ ∀ y ∈ c, y ∈ l := by
  intro n
  induction n with
  | zero =>
    intro l hl c hc
    have h : l = [] := List.length_eq_zero.mp (by omega)
    subst h
    simp [chunksOf] at hc
  | succ n ih =>
    intro l hl c hc
    match l with
    | [] => simp [chunksOf] at hc
    | x :: xs =>
      match b with
      | 0 =>
        rw [chunksOf_zero_cons, List.mem_singleton] at hc
        subst hc
        exact ⟨List.cons_ne_nil _ _, fun y hy => hy⟩
      | b' + 1 =>
        rw [chunksOf] at hc
        rcases List.mem_cons.mp hc with rfl | hc'
        · refine ⟨?_, fun y hy => List.mem_of_mem_take hy⟩
          have h1 : 0 < ((x :: xs).take (b' + 1)).length := by
            simp [List.length_take]
          exact List.length_pos.mp h1
        · have hlen : ((x :: xs).drop (b' + 1)).length ≤ n := by
            simp only [List.length_drop, List.length_cons]
            simp only [List.length_cons] at hl
            omega
          obtain ⟨hc1, hc2⟩ := ih _ hlen c hc'
          exact ⟨hc1, fun y hy => List.mem_of_mem_drop (hc2 y hy)⟩

theorem sorted_get_le {l : List Int} (hs : l.Sorted (· ≤ ·)) {i j : Nat}
    (hij : i ≤ j) (hj : j < l.length) :
    l.get ⟨i, lt_of_le_of_lt hij hj⟩ ≤ l.get ⟨j, hj⟩ := by
  rcases Nat.eq_or_lt_of_le hij with rfl | hlt
  · exact le_refl _
  · have h := List.pairwise_iff_getElem.mp hs i j (lt_of_le_of_lt hij hj) hj hlt
    simpa [List.get_eq_getElem] using h

/-- A series that already fits the window and the point budget passes
through `downsample` unchanged: the scans find the full range, the slice
is the whole series, and either the passthrough branch fires or (with a
zero budget and a single point) the single whole-slice chunk reproduces
the point exactly. -/
theorem downsample_fixpoint (ts : List Int) (hs : List ℚ) (minX maxX : Int)
    (mp : Nat) (hlen : ts.length = hs.length) (hne : ts ≠ [])
    (hmin : ∀ t ∈ ts, minX ≤ t)
    (hmax : (∀ t ∈ ts, t ≤ maxX) ∨ (∀ t ∈ ts, ¬ t ≤ maxX))
    (hcount : ts.length ≤ mp ∨ (mp = 0 ∧ ts.length = 1)) :
    downsample ts hs minX maxX mp = (ts, hs) := by
  obtain ⟨t0, ts', rfl⟩ := List.exists_cons_of_ne_nil hne
  have hf : findFirstGe minX (t0 :: ts') = some 0 :=
    findFirstGe_cons_head ts' (hmin t0 (List.mem_cons_self _ _))
  have hE : (lastLe maxX (t0 :: ts')).getD ((t0 :: ts').length - 1) =
      (t0 :: ts').length - 1 := by
    rcases hmax with hall | hnone
    · rw [lastLe_of_all hall (List.cons_ne_nil _ _)]; rfl
    · rw [lastLe_eq_none hnone]; rfl
  unfold downsample
  rw [hf]
  show downsampleCore (t0 :: ts') hs 0
    ((lastLe maxX (t0 :: ts')).getD ((t0 :: ts').length - 1)) mp = _
  rw [hE]
  unfold downsampleCore
  have hL1 : 1 ≤ (t0 :: ts').length := by simp
  rw [if_neg (by omega : ¬ ((t0 :: ts').length - 1 + 1 ≤ 0))]
  have hslice_ts : sliceTo (t0 :: ts') 0 ((t0 :: ts').length - 1) = t0 :: ts' :=
    sliceTo_full rfl hL1
  have hslice_hs : sliceTo hs 0 ((t0 :: ts').length - 1) = hs :=
    sliceTo_full hlen.symm hL1
  rcases hcount with hc | ⟨hmp0, hone⟩
  · rw [if_pos (by omega : (t0 :: ts').length - 1 + 1 - 0 ≤ mp), hslice_ts, hslice_hs]
  · subst hmp0
    rw [if_neg (by omega : ¬ (t0 :: ts').length - 1 + 1 - 0 ≤ 0)]
    have hts' : ts' = [] := by
      simp only [List.length_cons] at hone
      exact List.length_eq_zero.mp (by omega)
    subst hts'
    cases hs with
    | nil => simp at hlen
    | cons h0 hs' =>
      cases hs' with
      | cons _ _ => simp at hlen
      | nil =>
        rw [hslice_ts, hslice_hs]
        rw [show bucketSizeOf ([t0].length - 1 + 1 - 0) 0 = 0 from rfl]
        rw [show ([t0].zip [h0]) = [(t0, h0)] from rfl, chunksOf_zero_cons]
        simp [chunkAvg]

/-- The output of `downsample` over a sorted series satisfies the
preconditions of `downsample_fixpoint`: parallel lengths, every point at
or after `minX`, points uniformly inside or uniformly beyond `maxX`, and
at most `maxPoints` points (one point when the budget is zero). -/
theorem downsample_spec (ts : List Int) (hs : List ℚ) (minX maxX : Int)
    (mp : Nat) (hlen : ts.length = hs.length) (hsorted : ts.Sorted (· ≤ ·)) :
    (downsample ts hs minX maxX mp).1.length =
      (downsample ts hs minX maxX mp).2.length ∧
    (∀ t ∈ (downsample ts hs minX maxX mp).1, minX ≤ t) ∧
    ((∀ t ∈ (downsample ts hs minX maxX mp).1, t ≤ maxX) ∨
      (∀ t ∈ (downsample ts hs minX maxX mp).1, ¬ t ≤ maxX)) ∧
    ((downsample ts hs minX maxX mp).1.length ≤ mp ∨
      (mp = 0 ∧ (downsample ts hs minX maxX mp).1.length ≤ 1)) := by
  cases hf : findFirstGe minX ts with
  | none =>
    have hd : downsample ts hs minX maxX mp = ([], []) := by
      unfold downsample; rw [hf]
    rw [hd]
    exact ⟨rfl, by simp, Or.inl (by simp), Or.inl (by simp)⟩
  | some s =>
    obtain ⟨hs_lt, hs_ge⟩ := findFirstGe_spec hf
    have hd : downsample ts hs minX maxX mp =
        downsampleCore ts hs s ((lastLe maxX ts).getD (ts.length - 1)) mp := by
      unfold downsample; rw [hf]
    rw [hd]
    have hE_lt : (lastLe maxX ts).getD (ts.length - 1) < ts.length := by
      cases hl : lastLe maxX ts with
      | none => simp only [Option.getD_none]; omega
      | some e =>
        obtain ⟨he, _⟩ := lastLe_some_spec hl
        simpa using he
    set E := (lastLe maxX ts).getD (ts.length - 1) with hEdef
    unfold downsampleCore
    by_cases hempty : E + 1 ≤ s
    · rw [if_pos hempty]
      exact ⟨rfl, by simp, Or.inl (by simp), Or.inl (by simp)⟩
    · rw [if_neg hempty]
      have hslice_min : ∀ y ∈ sliceTo ts s E, minX ≤ y := by
        intro y hy
        obtain ⟨i, hi, hsi, hie, rfl⟩ := mem_sliceTo hy
        exact le_trans hs_ge (sorted_get_le hsorted hsi hi)
      have hslice_max : (∀ y ∈ sliceTo ts s E, y ≤ maxX) ∨
          (∀ y ∈ sliceTo ts s E, ¬ y ≤ maxX) := by
        cases hl : lastLe maxX ts with
        | none =>
          right
          intro y hy
          obtain ⟨i, hi, _, _, rfl⟩ := mem_sliceTo hy
          exact lastLe_none_spec hl _ (List.get_mem _ _ _)
        | some e =>
          left
          have hEe : E = e := by rw [hEdef, hl]; rfl
          obtain ⟨helt, hele⟩ := lastLe_some_spec hl
          intro y hy
          obtain ⟨i, hi, hsi, hie, rfl⟩ := mem_sliceTo hy
          exact le_trans (sorted_get_le hsorted (hEe ▸ hie) helt) hele
      have hslice_len_ts : (sliceTo ts s E).length = E + 1 - s := by
        rw [sliceTo_length]; omega
      have hslice_len_hs : (sliceTo hs s E).length = E + 1 - s := by
        rw [sliceTo_length, ← hlen]; omega
      by_cases hpass : E + 1 - s ≤ mp
      · rw [if_pos hpass]
        exact ⟨by rw [hslice_len_ts, hslice_len_hs], hslice_min, hslice_max,
          Or.inl (by rw [hslice_len_ts]; exact hpass)⟩
      · rw [if_neg hpass]
        have hZlen : ((sliceTo ts s E).zip (sliceTo hs s E)).length = E + 1 - s := by
          rw [List.length_zip, hslice_len_ts, hslice_len_hs]
          omega
        have hchunk_mem : ∀ t ∈ (chunksOf (bucketSizeOf (E + 1 - s) mp)
            ((sliceTo ts s E).zip (sliceTo hs s E))).map (fun c => (c.headD (0, 0)).1),
            t ∈ sliceTo ts s E := by
          intro t ht
          obtain ⟨c, hc, rfl⟩ := List.mem_map.mp ht
          obtain ⟨hcne, hcmem⟩ := mem_chunksOf _ _ _ le_rfl c hc
          have hhead : c.headD (0, 0) ∈ c := by
            cases c with
            | nil => cases hcne rfl
            | cons z c' => exact List.mem_cons_self _ _
          have hz := hcmem _ hhead
          rcases hp : c.headD (0, 0) with ⟨a, b⟩
          rw [hp] at hz
          exact (List.mem_zip hz).1
        refine ⟨by simp, ?_, ?_, ?_⟩
        · intro t ht
          exact hslice_min t (hchunk_mem t ht)
        · rcases hslice_max with hall | hnone
          · exact Or.inl (fun t ht => hall t (hchunk_mem t ht))
          · exact Or.inr (fun t ht => hnone t (hchunk_mem t ht))
        · by_cases hmp0 : mp = 0
          · right
            refine ⟨hmp0, ?_⟩
            have hZpos : 0 < ((sliceTo ts s E).zip (sliceTo hs s E)).length := by
              rw [hZlen]; omega
            have hZne : (sliceTo ts s E).zip (sliceTo hs s E) ≠ [] :=
              List.length_pos.mp hZpos
            obtain ⟨z, Z', hZeq⟩ := List.exists_cons_of_ne_nil hZne
            rw [hZeq]
            rw [show bucketSizeOf (E + 1 - s) mp = 0 from by
              rw [bucketSizeOf, if_pos hmp0]]
            rw [chunksOf_zero_cons]
            simp
          · left
            have hmp1 : 1 ≤ mp := by omega
            have hb1 : 1 ≤ bucketSizeOf (E + 1 - s) mp := by
              rw [bucketSizeOf, if_neg hmp0]
              rw [Nat.le_div_iff_mul_le (show 0 < mp by omega)]
              omega
            have hmul : ((sliceTo ts s E).zip (sliceTo hs s E)).length ≤
                bucketSizeOf (E + 1 - s) mp * mp := by
              rw [hZlen, bucketSizeOf, if_neg hmp0, Nat.mul_comm]
              have hdm := Nat.div_add_mod (E + 1 - s + mp - 1) mp
              have hmod := Nat.mod_lt (E + 1 - s + mp - 1) (show 0 < mp by omega)
              omega
            have hcount := chunksOf_length_le _ hb1 mp _ hmul
            simpa using hcount

/-- Claim C9 — `downsample` is idempotent for a fixed window and point
budget: on any monotonically increasing timestamp sequence with a parallel
hits sequence, re-downsampling the output with the same `minX`, `maxX` and
`maxPoints` returns it unchanged. -/
theorem downsample_idempotent (ts : List Int) (hs : List ℚ) (minX maxX : Int)
    (mp : Nat) (hlen : ts.length = hs.length) (hsorted : ts.Sorted (· ≤ ·)) :
    downsample (downsample ts hs minX maxX mp).1
        (downsample ts hs minX maxX mp).2 minX maxX mp =
      ((downsample ts hs minX maxX mp).1, (downsample ts hs minX maxX mp).2) := by
  obtain ⟨hleneq, hmin, hmax, hcount⟩ := downsample_spec ts hs minX maxX mp hlen hsorted
  rcases eq_or_ne (downsample ts hs minX maxX mp).1 [] with hout | hout
  · have h2 : (downsample ts hs minX maxX mp).2 = [] := by
      have := hleneq
      rw [hout] at this
      exact List.length_eq_zero.mp this.symm
    rw [hout, h2]
    rfl
  · apply downsample_fixpoint _ _ _ _ _ hleneq hout hmin hmax
    rcases hcount with hc | ⟨hmp0, hle1⟩
    · exact Or.inl hc
    · refine Or.inr ⟨hmp0, ?_⟩
      have := List.length_pos.mpr hout
      omega

/-- Witness for C9 at a concrete series, window and budget that exercise
the chunk-averaging branch. -/
theorem downsample_idempotent_witness :
    downsample (downsample [0, 10, 20, 30, 40] [1, 2, 3, 4, 5] 0 40 2).1
        (downsample [0, 10, 20, 30, 40] [1, 2, 3, 4, 5] 0 40 2).2 0 40 2 =
      ((downsample [0, 10, 20, 30, 40] [1, 2, 3, 4, 5] 0 40 2).1,
       (downsample [0, 10, 20, 30, 40] [1, 2, 3, 4, 5] 0 40 2).2) :=
  downsample_idempotent [0, 10, 20, 30, 40] [1, 2, 3, 4, 5] 0 40 2
    (by decide) (by decide)

/-! ## Client LOD cache and zoom handler (part_005) -/

/-- The client `Granularity` type: `"10min" | "hourly" | "daily"`. -/
inductive Gran
  | tenMin
  | hourly
  | daily
  deriving DecidableEq, Repr

/-- A `LodCacheEntry`: the absolute covered range (`first`/`last` fetched
bucket) plus the fetched series.  The `granularity` field of the source
always equals the slot key it is stored under, so it is represented by the
slot itself. -/
structure LodCacheEntry where
  rangeStart : Int
  rangeEnd : Int
  timestamps : List Int
  hits : List ℚ
  deriving DecidableEq, Repr

/-- `this.lodCache`: one optional entry per granularity. -/
structure LodCache where
  fineSlot : Option LodCacheEntry
  hourlySlot : Option LodCacheEntry
  dailySlot : Option LodCacheEntry
  deriving DecidableEq, Repr

/-- The `lodPriority = ["10min", "hourly", "daily"]` traversal order. -/
def slots (c : LodCache) : List (Gran × Option LodCacheEntry) :=
  [(.tenMin, c.fineSlot), (.hourly, c.hourlySlot), (.daily, c.dailySlot)]

/-- `cache.range.start <= minX && cache.range.end >= maxX`. -/
def entryCovers (minX maxX : Int) (e : LodCacheEntry) : Bool :=
  decide (e.rangeStart ≤ minX) && decide (maxX ≤ e.rangeEnd)

/-- First pass of `getBestCacheForRange`: the first populated slot whose
covered range fully contains the viewport. -/
def firstCovering (minX maxX : Int) :
    List (Gran × Option LodCacheEntry) → Option (Gran × LodCacheEntry)
  | [] => none
  | (g, some e) :: rest =>
    if entryCovers minX maxX e then some (g, e) else firstCovering minX maxX rest
  | (_, none) :: rest => firstCovering minX maxX rest

/-- Second pass: any populated slot, in the same priority order. -/
def firstPopulated :
    List (Gran × Option LodCacheEntry) → Option (Gran × LodCacheEntry)
  | [] => none
  | (g, some e) :: _ => some (g, e)
  | (_, none) :: rest => firstPopulated rest

/-- `getBestCacheForRange(minX, maxX)`. -/
def getBestCacheForRange (c : LodCache) (minX maxX : Int) :
    Option (Gran × LodCacheEntry) :=
  match firstCovering minX maxX (slots c) with
  | some ge => some ge
  | none => firstPopulated (slots c)

/-- `getGranularityForRange(start, end)`: `spanDays ≤ 1` → 10min,
`spanDays ≤ 30` → hourly, else daily. -/
def getGranularityForRange (start endT : Int) : Gran :=
  if endT - start ≤ 86400 then .tenMin
  else if endT - start ≤ 2592000 then .hourly
  else .daily

/-- The `minSpan = 1.5 * 86400` clamp of `handleSelect`: a selection
narrower than 129600 s is widened around its centre, with
`Math.floor(center ± 64800)` on the (possibly half-integral) centre
`(min + max) / 2` equal to `⌊(min + max) / 2⌋ ± 64800`. -/
def clampSelect (min0 max0 : Int) : Int × Int :=
  if max0 - min0 < 129600 then
    (Int.fdiv (min0 + max0) 2 - 64800, Int.fdiv (min0 + max0) 2 + 64800)
  else (min0, max0)

/-- What one zoom selection does (the body of `handleSelect` after the
`select.width <= 10` guard, with `min0`/`max0` the floored `posToVal`
ends): the clamped range stored into `currentRange`, the cache entry used
for the synchronous render, the rendered series
(`renderCurrentViewport({min, max})` runs in both branches and feeds the
best cache entry through `downsample` with the pixel budget), and whether
`fetchData()` is called. -/
structure SelectOutcome where
  rangeMin : Int
  rangeMax : Int
  used : Option (Gran × LodCacheEntry)
  rendered : Option (List Int × List ℚ)
  fetchIssued : Bool
  deriving DecidableEq, Repr

def handleSelect (c : LodCache) (min0 max0 : Int) (maxPoints : Nat) :
    SelectOutcome :=
  { rangeMin := (clampSelect min0 max0).1
    rangeMax := (clampSelect min0 max0).2
    used := getBestCacheForRange c (clampSelect min0 max0).1 (clampSelect min0 max0).2
    rendered := (getBestCacheForRange c (clampSelect min0 max0).1
        (clampSelect min0 max0).2).map
      (fun ge => downsample ge.2.timestamps ge.2.hits (clampSelect min0 max0).1
        (clampSelect min0 max0).2 maxPoints)
    fetchIssued :=
      match getBestCacheForRange c (clampSelect min0 max0).1
          (clampSelect min0 max0).2 with
      | some ge =>
        decide (¬ ge.1 = getGranularityForRange (clampSelect min0 max0).1
          (clampSelect min0 max0).2)
      | none => true }

/-- The clamped selection always spans at least 1.5 days. -/
theorem clampSelect_span (min0 max0 : Int) :
    129600 ≤ (clampSelect min0 max0).2 - (clampSelect min0 max0).1 := by
  unfold clampSelect
  split_ifs with h
  · simp only
    omega
  · simp only
    omega

/-- Counterexample to C5 as stated — a viewport `[10^6, 1.2·10^6]` (wide
enough to escape the clamp) fully inside the populated fine slot's covered
range `[0, 10^9]` is rendered from that fine entry, yet `handleSelect`
still issues a fetch, because the target granularity for the span is
`hourly`, not `10min`. -/
theorem handleSelect_fine_cache_fetches :
    clampSelect 1000000 1200000 = (1000000, 1200000) ∧
    entryCovers 1000000 1200000 ⟨0, 1000000000, [1000000, 1100000], [1, 2]⟩ = true ∧
    (handleSelect ⟨some ⟨0, 1000000000, [1000000, 1100000], [1, 2]⟩, none, none⟩
      1000000 1200000 800).used =
      some (Gran.tenMin, ⟨0, 1000000000, [1000000, 1100000], [1, 2]⟩) ∧
    (handleSelect ⟨some ⟨0, 1000000000, [1000000, 1100000], [1, 2]⟩, none, none⟩
      1000000 1200000 800).fetchIssued = true := by
  refine ⟨by decide, by decide, by decide, by decide⟩

/-- Claim C5, amended — whenever the (clamped) viewport is fully contained
in the populated fine slot's covered range, `handleSelect` renders
synchronously from that fine entry via the downsampler, but a new fetch is
nonetheless issued: the clamp forces the span above one day, so the target
granularity is never `10min` and the `bestCache.granularity === targetGran`
short-circuit cannot fire. -/
theorem handleSelect_fine_covered (c : LodCache) (e : LodCacheEntry)
    (min0 max0 : Int) (mp : Nat) (hfine : c.fineSlot = some e)
    (hcov : entryCovers (clampSelect min0 max0).1 (clampSelect min0 max0).2 e = true) :
    (handleSelect c min0 max0 mp).used = some (Gran.tenMin, e) ∧
    (handleSelect c min0 max0 mp).rendered =
      some (downsample e.timestamps e.hits (clampSelect min0 max0).1
        (clampSelect min0 max0).2 mp) ∧
    (handleSelect c min0 max0 mp).fetchIssued = true := by
  have hbest : getBestCacheForRange c (clampSelect min0 max0).1
      (clampSelect min0 max0).2 = some (Gran.tenMin, e) := by
    unfold getBestCacheForRange slots firstCovering
    rw [hfine]
    simp only [hcov, if_true]
  have hspan := clampSelect_span min0 max0
  have hgran : getGranularityForRange (clampSelect min0 max0).1
      (clampSelect min0 max0).2 ≠ Gran.tenMin := by
    unfold getGranularityForRange
    rw [if_neg (by omega : ¬ (clampSelect min0 max0).2 - (clampSelect min0 max0).1 ≤ 86400)]
    split_ifs <;> simp
  refine ⟨?_, ?_, ?_⟩
  · show getBestCacheForRange c (clampSelect min0 max0).1
      (clampSelect min0 max0).2 = some (Gran.tenMin, e)
    exact hbest
  · show (getBestCacheForRange c (clampSelect min0 max0).1
        (clampSelect min0 max0).2).map _ = _
    rw [hbest]
    rfl
  · show (match getBestCacheForRange c (clampSelect min0 max0).1
        (clampSelect min0 max0).2 with
      | some ge =>
        decide (¬ ge.1 = getGranularityForRange (clampSelect min0 max0).1
          (clampSelect min0 max0).2)
      | none => true) = true
    rw [hbest]
    exact decide_eq_true (fun h => hgran h.symm)

/-- Witness for the amended C5 at a second concrete cache state. -/
theorem handleSelect_fine_covered_witness :
    (handleSelect ⟨some ⟨1500000, 3000000, [2000000], [5]⟩, none, none⟩
      2000000 2300000 600).used =
      some (Gran.tenMin, ⟨1500000, 3000000, [2000000], [5]⟩) ∧
    (handleSelect ⟨some ⟨1500000, 3000000, [2000000], [5]⟩, none, none⟩
      2000000 2300000 600).rendered =
      some (downsample [2000000] [5] (clampSelect 2000000 2300000).1
        (clampSelect 2000000 2300000).2 600) ∧
    (handleSelect ⟨some ⟨1500000, 3000000, [2000000], [5]⟩, none, none⟩
      2000000 2300000 600).fetchIssued = true :=
  handleSelect_fine_covered ⟨some ⟨1500000, 3000000, [2000000], [5]⟩, none, none⟩
    ⟨1500000, 3000000, [2000000], [5]⟩ 2000000 2300000 600 rfl (by decide)

end L4
